import Mathlib

/-!
Verification of the ProSmart RAG pipeline (Supabase edge functions
`process-pdf` and `chat`, plus the `match_documents` / `match_images`
SQL functions) against its natural-language specification.

JavaScript strings are modelled as `List Char`; the whitespace class of
the regexes (`\s`) and `toLowerCase` are modelled over ASCII, which is
the alphabet relevant to every claim.  Machine floats of the SQL layer
are modelled as rationals.
-/

namespace ProSmart

/-! ## JS string primitives -/

/-- The ASCII whitespace characters matched by the regex class `\s`. -/
def isWs (c : Char) : Bool :=
  c = ' ' || c = '\t' || c = '\n' || c = '\r' || c = '\x0b' || c = '\x0c'

/-- `String.prototype.trim()`: strip whitespace from both ends. -/
def jsTrim (s : List Char) : List Char :=
  ((s.dropWhile isWs).reverse.dropWhile isWs).reverse

/-- `s.slice(-n)`: the last `n` characters (the whole string when shorter). -/
def jsSliceLast (n : Nat) (s : List Char) : List Char :=
  s.drop (s.length - n)

/-- ASCII `toLowerCase`, applied characterwise. -/
def toLowerAscii (c : Char) : Char :=
  if 'A' ≤ c ∧ c ≤ 'Z' then Char.ofNat (c.toNat + 32) else c

/-- `s.split(/\n\n+/)`: a separator is a maximal run of at least two
newlines (the regex is greedy), pieces may be empty.  The `fuel`
argument only makes the recursion structural (each step consumes at
least one character, so `fuel = s.length` never runs out). -/
def splitParasAux : Nat → List Char → List Char → List (List Char)
  | _, [], acc => [acc.reverse]
  | 0, l, acc => [acc.reverse ++ l]
  | fuel + 1, '\n' :: '\n' :: rest, acc =>
      acc.reverse :: splitParasAux fuel (rest.dropWhile (· = '\n')) []
  | fuel + 1, c :: rest, acc => splitParasAux fuel rest (c :: acc)

def splitParas (s : List Char) : List (List Char) :=
  splitParasAux s.length s []

/-- `s.split(/\s+/)`: split on maximal whitespace runs; a leading or
trailing run yields an empty piece, exactly as in JavaScript. -/
def splitWsAux : Nat → List Char → List Char → List (List Char)
  | _, [], acc => [acc.reverse]
  | 0, l, acc => [acc.reverse ++ l]
  | fuel + 1, c :: rest, acc =>
      if isWs c then acc.reverse :: splitWsAux fuel (rest.dropWhile isWs) []
      else splitWsAux fuel rest (c :: acc)

def splitWs (s : List Char) : List (List Char) :=
  splitWsAux s.length s []

/-- `s.includes(sub)`: substring containment (true for the empty string). -/
def jsIncludes (s sub : List Char) : Bool :=
  s.tails.any (fun t => sub.isPrefixOf t)

/-! ## Chunker (`createSemanticChunks` in process-pdf/index.ts) -/

structure DiagramInfo where
  description : List Char
  position : List Char
  dtype : List Char
  elements : List (List Char)
deriving Repr, DecidableEq

structure TableEntry where
  title : List Char
  content : List Char
deriving Repr, DecidableEq

structure PageAnalysis where
  page_number : Int
  text_content : List Char
  diagrams : List DiagramInfo
  tables : List TableEntry
  key_elements : List (List Char)
deriving Repr, DecidableEq

structure Chunk where
  content : List Char
  page_number : Int
  chunk_index : Nat
  has_diagram : Bool
  diagram_description : Option (List Char)
deriving Repr, DecidableEq

def targetChunkSize : Nat := 800

def overlap : Nat := 100

/-- `analysis.diagrams.map(d => d.description).join("; ")`. -/
def joinSemi (l : List (List Char)) : List Char :=
  List.intercalate ('\x3b' :: ' ' :: []) l

/-- The paragraph-packing loop of `createSemanticChunks`: greedily append
paragraphs to `cur`; when adding the next one would exceed the target
size, close the chunk and restart from the last `overlap` characters. -/
def paraChunksAux (page : Int) (hasD : Bool) (dd : Option (List Char)) :
    List (List Char) → List Char → Nat → List Chunk
  | [], cur, idx =>
      if jsTrim cur ≠ [] then [⟨jsTrim cur, page, idx, hasD, dd⟩] else []
  | para :: rest, cur, idx =>
      if targetChunkSize < cur.length + para.length ∧ 0 < cur.length then
        ⟨jsTrim cur, page, idx, hasD, dd⟩ ::
          paraChunksAux page hasD dd rest
            (jsSliceLast overlap cur ++ ('\n' :: '\n' :: []) ++ para) (idx + 1)
      else
        paraChunksAux page hasD dd rest
          (if cur = [] then para else cur ++ ('\n' :: '\n' :: []) ++ para) idx

/-- The sliding-window fallback of `createSemanticChunks` for pages without
paragraph structure: windows of `targetChunkSize` advancing by
`targetChunkSize - overlap`, keeping trimmed windows longer than 50. -/
def windowChunks (page : Int) (hasD : Bool) (dd : Option (List Char))
    (pageText : List Char) : List Chunk :=
  let step := targetChunkSize - overlap
  (List.range ((pageText.length + step - 1) / step)).filterMap fun k =>
    let t := jsTrim ((pageText.drop (k * step)).take targetChunkSize)
    if 50 < t.length then some ⟨t, page, k, hasD, dd⟩ else none

/-- The blank-line paragraphs of a page retained by the chunker
(trimmed length strictly above 50). -/
def pageParagraphs (a : PageAnalysis) : List (List Char) :=
  (splitParas a.text_content).filter (fun p => 50 < (jsTrim p).length)

/-- Prose chunks of one page: paragraph packing when the page splits into
more than one retained paragraph, otherwise the sliding window. -/
def pageProseChunks (a : PageAnalysis) : List Chunk :=
  let hasD := decide (a.diagrams ≠ [])
  let dd := if a.diagrams ≠ [] then some (joinSemi (a.diagrams.map (·.description)))
            else none
  let paragraphs := pageParagraphs a
  if 1 < paragraphs.length then paraChunksAux a.page_number hasD dd paragraphs [] 0
  else windowChunks a.page_number hasD dd a.text_content

def tablaMark : List Char :=
  '[' :: 'T' :: 'A' :: 'B' :: 'L' :: 'A' :: ':' :: ' ' :: []

def sinTitulo : List Char :=
  'S' :: 'i' :: 'n' :: ' ' :: 't' :: 'í' :: 't' :: 'u' :: 'l' :: 'o' :: []

/-- Standalone table chunks; `n` is the running global chunk count used as
`chunk_index` (the source uses `chunks.length` at push time). -/
def tableChunksAux (page : Int) : List TableEntry → Nat → List Chunk
  | [], _ => []
  | t :: ts, n =>
      if t.content ≠ [] then
        ⟨tablaMark ++ (if t.title = [] then sinTitulo else t.title) ++
            (']' :: '\n' :: []) ++ t.content,
          page, n, false, none⟩ :: tableChunksAux page ts (n + 1)
      else tableChunksAux page ts n

/-- `createSemanticChunks(analyses)`: pages with whitespace-only text are
skipped entirely (tables included); prose chunks then table chunks. -/
def createSemanticChunks (analyses : List PageAnalysis) : List Chunk :=
  analyses.foldl
    (fun acc a =>
      if jsTrim a.text_content = [] then acc
      else
        let acc1 := acc ++ pageProseChunks a
        acc1 ++ tableChunksAux a.page_number a.tables acc1.length)
    []

/-! ## Stored rows and the SQL match functions
(002_enhanced_rag_with_images.sql)

Embeddings are abstract (`E`) together with a pgvector cosine-distance
function `dist`; the match functions only use the derived similarity
`1 - dist`, so every claim about them is proved for an arbitrary
distance. -/

structure ChunkRow (E : Type) where
  id : Int
  user_id : String
  document_id : String
  content : List Char
  page_number : Int
  chunk_index : Option Nat
  has_diagram : Option Bool
  diagram_description : Option (List Char)
  embedding : Option E
deriving Repr, DecidableEq

structure ImageRow (E : Type) where
  id : Int
  user_id : String
  document_id : String
  page_number : Int
  image_url : List Char
  ai_caption : Option (List Char)
  image_type : Option (List Char)
  width : Int
  height : Int
  context : Option (List Char)
  embedding : Option E
deriving Repr, DecidableEq

/-- Row returned by `match_documents`. -/
structure MatchDocResult where
  id : Int
  content : List Char
  page_number : Int
  has_diagram : Bool
  diagram_description : Option (List Char)
  similarity : ℚ
deriving Repr, DecidableEq

/-- Row returned by `match_images`. -/
structure MatchImgResult where
  id : Int
  image_url : List Char
  ai_caption : List Char
  image_type : List Char
  page_number : Int
  context : Option (List Char)
  similarity : ℚ
deriving Repr, DecidableEq

/-- `1 - (embedding <=> query_embedding)`; a SQL NULL embedding never
reaches this point because the WHERE clause filters it out. -/
def chunkSim {E : Type} (dist : E → E → ℚ) (q : E) (r : ChunkRow E) : ℚ :=
  match r.embedding with
  | some e => 1 - dist e q
  | none => 0

def imgSim {E : Type} (dist : E → E → ℚ) (q : E) (r : ImageRow E) : ℚ :=
  match r.embedding with
  | some e => 1 - dist e q
  | none => 0

/-- WHERE clause of `match_documents`: the user's rows whose similarity
strictly exceeds the threshold (a NULL embedding compares to NULL,
which is not true, hence is excluded). -/
def chunkEligible {E : Type} (dist : E → E → ℚ) (q : E) (t : ℚ) (uid : String)
    (r : ChunkRow E) : Bool :=
  r.user_id = uid &&
    (match r.embedding with
     | some e => decide (t < 1 - dist e q)
     | none => false)

/-- WHERE clause of `match_images` (it also requires
`embedding IS NOT NULL` explicitly). -/
def imgEligible {E : Type} (dist : E → E → ℚ) (q : E) (t : ℚ) (uid : String)
    (r : ImageRow E) : Bool :=
  r.user_id = uid &&
    (match r.embedding with
     | some e => decide (t < 1 - dist e q)
     | none => false)

def projChunkRow {E : Type} (dist : E → E → ℚ) (q : E) (r : ChunkRow E) :
    MatchDocResult :=
  ⟨r.id, r.content, r.page_number, r.has_diagram.getD false,
    r.diagram_description, chunkSim dist q r⟩

def imagenDelDocumento : List Char :=
  'I' :: 'm' :: 'a' :: 'g' :: 'e' :: 'n' :: ' ' :: 'd' :: 'e' :: 'l' :: ' ' ::
    'd' :: 'o' :: 'c' :: 'u' :: 'm' :: 'e' :: 'n' :: 't' :: 'o' :: []

def diagramWord : List Char :=
  'd' :: 'i' :: 'a' :: 'g' :: 'r' :: 'a' :: 'm' :: []

/-- Projection of `match_images`, with its two COALESCEs. -/
def projImageRow {E : Type} (dist : E → E → ℚ) (q : E) (r : ImageRow E) :
    MatchImgResult :=
  ⟨r.id, r.image_url,
    (r.ai_caption.getD (r.context.getD imagenDelDocumento)),
    r.image_type.getD diagramWord,
    r.page_number, r.context, imgSim dist q r⟩

/-- `match_documents(query_embedding, match_threshold, match_count,
p_user_id)`: filter to the user's rows above the threshold, order by
similarity descending, LIMIT `match_count`, project. -/
def matchDocuments {E : Type} (dist : E → E → ℚ) (rows : List (ChunkRow E))
    (q : E) (t : ℚ) (k : Nat) (uid : String) : List MatchDocResult :=
  ((((rows.filter (chunkEligible dist q t uid)).insertionSort
      (fun a b => chunkSim dist q b ≤ chunkSim dist q a)).take k).map
    (projChunkRow dist q))

/-- `match_images`, analogously. -/
def matchImages {E : Type} (dist : E → E → ℚ) (rows : List (ImageRow E))
    (q : E) (t : ℚ) (k : Nat) (uid : String) : List MatchImgResult :=
  ((((rows.filter (imgEligible dist q t uid)).insertionSort
      (fun a b => imgSim dist q b ≤ imgSim dist q a)).take k).map
    (projImageRow dist q))

/-! ## Chat function (chat/index.ts): image resolution -/

structure RelevantImage where
  id : Int
  image_url : List Char
  ai_caption : List Char
  image_type : List Char
  page_number : Int
  similarity : ℚ
deriving Repr, DecidableEq

structure AttachedImage where
  url : List Char
  caption : List Char
  page_number : Int
deriving Repr, DecidableEq

/-- Case-insensitive prefix test against an already-lowercase pattern. -/
def ciStarts (pat : List Char) (s : List Char) : Bool :=
  ((s.take pat.length).map toLowerAscii) == pat

def imagenTagLower : List Char :=
  '[' :: 'i' :: 'm' :: 'a' :: 'g' :: 'e' :: 'n' :: ':' :: []

/-- The global scan of `response.matchAll(/\[IMAGEN:\s*([^\]]+)\]/gi)`.
A match needs at least one character between the colon and the closing
bracket; the emitted text is everything between them (the regex capture
omits part of the leading whitespace, but the caller lowercases and
trims it, so the difference is invisible).  After a match the scan
resumes past the bracket; otherwise it advances one character. -/
def findTagsAux : Nat → List Char → List (List Char)
  | 0, _ => []
  | _, [] => []
  | fuel + 1, s =>
      if ciStarts imagenTagLower s then
        let after := s.drop imagenTagLower.length
        let content := after.takeWhile (fun c => c ≠ ']')
        match after.drop content.length with
        | ']' :: tail =>
            if content ≠ [] then content :: findTagsAux fuel tail
            else findTagsAux fuel s.tail
        | _ => findTagsAux fuel s.tail
      else findTagsAux fuel s.tail

def findTags (s : List Char) : List (List Char) :=
  findTagsAux s.length s

/-- The per-image score of `matchImagesFromResponse`: the number of
description words longer than 3 characters contained in some caption
word or containing one, plus 2 when the description mentions the
image's type. -/
def matchScore (description : List Char) (img : RelevantImage) : Nat :=
  let captionWords := splitWs (img.ai_caption.map toLowerAscii)
  let descWords := splitWs description
  descWords.countP
      (fun w => 3 < w.length &&
        captionWords.any (fun cw => jsIncludes cw w || jsIncludes w cw)) +
    (if jsIncludes description (img.image_type.map toLowerAscii) then 2 else 0)

/-- One step of the best-match scan: skip used images, keep an image
that strictly beats the running best score. -/
def pickStep (desc : List Char) (used : List Int)
    (st : Option RelevantImage × Nat) (img : RelevantImage) :
    Option RelevantImage × Nat :=
  if img.id ∈ used then st
  else if st.2 < matchScore desc img then (some img, matchScore desc img)
  else st

/-- The best-match scan for one tag: keep the first image that strictly
beats the running best score, skipping already-used images. -/
def pickBest (desc : List Char) (used : List Int)
    (images : List RelevantImage) : Option RelevantImage × Nat :=
  images.foldl (pickStep desc used) (none, 0)

def attachOf (img : RelevantImage) : AttachedImage :=
  ⟨img.image_url, img.ai_caption, img.page_number⟩

/-- The tag-resolution loop: for each tag, attach the best-scoring unused
image when its score is strictly positive, and mark it used. -/
def matchTags (images : List RelevantImage) :
    List (List Char) → List AttachedImage × List Int →
    List AttachedImage × List Int
  | [], st => st
  | t :: ts, (matched, used) =>
      let desc := jsTrim (t.map toLowerAscii)
      match pickBest desc used images with
      | (some img, s) =>
          if 0 < s then
            matchTags images ts (matched ++ [attachOf img], img.id :: used)
          else matchTags images ts (matched, used)
      | (none, _) => matchTags images ts (matched, used)

/-- `matchImagesFromResponse(response, availableImages)`. -/
def matchImagesFromResponse (response : List Char)
    (availableImages : List RelevantImage) : List AttachedImage :=
  let st := matchTags availableImages (findTags response) ([], [])
  if st.1.length = 0 && availableImages.length ≠ 0 then
    ((availableImages.filter (fun i => (0.4 : ℚ) < i.similarity)).take 2).map
      attachOf
  else st.1

/-! ## Chat function: step parsing (`parseSteps`) -/

/-- `\s*\d+[\.\)]\s+` matched at the head of `l`: the consumed length. -/
def numTailLen (l : List Char) : Option Nat :=
  let w := l.takeWhile isWs
  let rest1 := l.drop w.length
  let ds := rest1.takeWhile Char.isDigit
  if ds = [] then none
  else
    match rest1.drop ds.length with
    | c :: r2 =>
        if c = '.' || c = ')' then
          let w2 := r2.takeWhile isWs
          if w2 = [] then none
          else some (w.length + ds.length + 1 + w2.length)
        else none
    | [] => none

/-- `(?:^|\n)\s*\d+[\.\)]\s+` at the current position; `atLS` says whether
the multiline `^` matches here (start of input or just after a newline).
The `^` branch is tried first, as in the regex alternation. -/
def matchNumLen (atLS : Bool) (l : List Char) : Option Nat :=
  if atLS then
    match numTailLen l with
    | some n => some n
    | none =>
        match l with
        | '\n' :: r => (numTailLen r).map (· + 1)
        | _ => none
  else
    match l with
    | '\n' :: r => (numTailLen r).map (· + 1)
    | _ => none

/-- Number of matches of `/(?:^|\n)\s*\d+[\.\)]\s+/gm` over the input:
after a match the scan resumes at its end (tracking whether the last
consumed character was a newline), otherwise it advances one character. -/
def countNumAux : Nat → List Char → Bool → Nat
  | 0, _, _ => 0
  | _, [], _ => 0
  | fuel + 1, l, atLS =>
      match matchNumLen atLS l with
      | some n =>
          1 + countNumAux fuel (l.drop n) (decide ((l.take n).getLastD ' ' = '\n'))
      | none => countNumAux fuel l.tail (decide (l.headD ' ' = '\n'))

def countNum (l : List Char) : Nat :=
  countNumAux l.length l true

def pasoLower : List Char := 'p' :: 'a' :: 's' :: 'o' :: []

/-- `Paso\s*\d+` (case-insensitive) at the head of `l`: consumed length. -/
def pasoLen (l : List Char) : Option Nat :=
  if ciStarts pasoLower l then
    let r := l.drop pasoLower.length
    let w := r.takeWhile isWs
    let ds := (r.drop w.length).takeWhile Char.isDigit
    if ds = [] then none
    else some (pasoLower.length + w.length + ds.length)
  else none

/-- Number of matches of `/Paso\s*\d+/gi` over the input. -/
def countPasoAux : Nat → List Char → Nat
  | 0, _ => 0
  | _, [] => 0
  | fuel + 1, l =>
      match pasoLen l with
      | some n => 1 + countPasoAux fuel (l.drop n)
      | none => countPasoAux fuel l.tail

def countPaso (l : List Char) : Nat :=
  countPasoAux l.length l

/-- The zero-width lookahead `(?=\n\s*\d+[\.\)]\s+)`. -/
def lookNum (l : List Char) : Bool :=
  match l with
  | '\n' :: r => (numTailLen r).isSome
  | _ => false

/-- `response.split(/(?=\n\s*\d+[\.\)]\s+)/)`: cut before every position
where the lookahead holds; the zero-width match at position 0 does not
produce a leading empty piece, exactly as in JavaScript. -/
def splitNumAux : List Char → List Char → List (List Char)
  | [], cur => [cur.reverse]
  | c :: rest, cur =>
      if cur ≠ [] && lookNum (c :: rest) then
        cur.reverse :: splitNumAux rest [c]
      else splitNumAux rest (c :: cur)

def splitNum (s : List Char) : List (List Char) :=
  splitNumAux s []

/-- `response.split(/(?=Paso\s*\d+)/i)`, analogously. -/
def splitPasoAux : List Char → List Char → List (List Char)
  | [], cur => [cur.reverse]
  | c :: rest, cur =>
      if cur ≠ [] && (pasoLen (c :: rest)).isSome then
        cur.reverse :: splitPasoAux rest [c]
      else splitPasoAux rest (c :: cur)

def splitPaso (s : List Char) : List (List Char) :=
  splitPasoAux s []

/-- `parseSteps(response)` from chat/index.ts.  An empty response is falsy
and short-circuits to `[]`. -/
def parseSteps (response : List Char) : List (List Char) :=
  if response = [] then []
  else if 1 < countNum response then
    ((splitNum response).map jsTrim).filter (fun p => p ≠ [])
  else if 1 < countPaso response then
    ((splitPaso response).map jsTrim).filter (fun p => p ≠ [])
  else
    let paragraphs := (splitParas response).filter (fun p => jsTrim p ≠ [])
    if 1 < paragraphs.length then paragraphs.map jsTrim
    else [jsTrim response]

/-! ## Ingestion handler (process-pdf/index.ts `serve`)

External calls (page analysis, image captioning, the embeddings API, the
insert outcomes) are oracle inputs collected in `ProcessEnv`; the
database is explicit state.  The vision path absorbs per-page and
per-image failures inside `analyzePageWithVision` / `processEmbeddedImages`,
so its outcome is a plain list; the fallback path (download, size check,
Assistants extraction, timeout) can throw, so its outcome is `Except`. -/

structure ProcessedImage where
  page_number : Int
  image_url : List Char
  ai_caption : List Char
  image_type : List Char
  width : Int
  height : Int
deriving Repr, DecidableEq

structure EmbeddedImage where
  page_number : Int
  data : List Char
  width : Int
  height : Int
deriving Repr, DecidableEq

structure DocRow where
  id : String
  user_id : String
  file_path : List Char
  processed : Bool
  total_pages : Int
  processing_method : String
deriving Repr, DecidableEq

structure DB (E : Type) where
  documents : List DocRow
  chunks : List (ChunkRow E)
  images : List (ImageRow E)
deriving Repr, DecidableEq

structure ProcessPdfRequest where
  document_id : String
  user_id : String
  page_images : List (List Char)
  embedded_images : List EmbeddedImage
deriving Repr, DecidableEq

structure ProcessEnv (E : Type) where
  visionAnalyses : List PageAnalysis
  processedImages : List ProcessedImage
  assistantsResult : Except String (List PageAnalysis)
  chunkEmbedsResult : Except String (List E)
  imageEmbedsResult : Except String (List E)
  insertChunksError : Option String
  insertImagesError : Option String
deriving Repr

inductive PdfResponse
  | badRequest (error : String)
  | ok (chunks_count images_count total_pages : Nat) (processing_method : String)
  | err (error : String)
deriving Repr, DecidableEq

/-- Outcome of the strategy-selection phase: the vision path when page
images are supplied (embedded images processed only when present),
otherwise the throwing Assistants fallback, which never yields images. -/
def pdfAnalyses {E : Type} (req : ProcessPdfRequest) (env : ProcessEnv E) :
    Except String (List PageAnalysis × List ProcessedImage) :=
  if req.page_images ≠ [] then
    .ok (env.visionAnalyses,
      if req.embedded_images ≠ [] then env.processedImages else [])
  else env.assistantsResult.map (fun as => (as, []))

/-- `chunksToInsert`: one row per chunk, owned by the requesting user;
the row id is DB-assigned and modelled as 0. -/
def chunksToInsertOf {E : Type} (req : ProcessPdfRequest)
    (chunks : List Chunk) (embeds : List E) : List (ChunkRow E) :=
  chunks.mapIdx fun i c =>
    ⟨0, req.user_id, req.document_id, c.content, c.page_number,
      some c.chunk_index, some c.has_diagram, c.diagram_description,
      embeds.get? i⟩

/-- `imagesToInsert`: one row per processed image (`context` stays NULL). -/
def imagesToInsertOf {E : Type} (req : ProcessPdfRequest)
    (pimages : List ProcessedImage) (embeds : List E) : List (ImageRow E) :=
  pimages.mapIdx fun i p =>
    ⟨0, req.user_id, req.document_id, p.page_number, p.image_url,
      some p.ai_caption, some p.image_type, p.width, p.height, none,
      embeds.get? i⟩

def noContentMsg : String := "No se pudo extraer contenido del documento"

/-- The clear step: delete every chunk and image row of the requesting
user (`.delete().eq("user_id", user_id)`). -/
def clearedDB {E : Type} (req : ProcessPdfRequest) (db : DB E) : DB E :=
  { db with
    chunks := db.chunks.filter (fun r => decide (r.user_id ≠ req.user_id)),
    images := db.images.filter (fun r => decide (r.user_id ≠ req.user_id)) }

/-- The final document update: `processed = true`, total pages and
method, filtered only by `document_id` (`.eq("id", ...)`, no user
filter — exactly as in the source). -/
def markProcessed {E : Type} (req : ProcessPdfRequest) (totalPages : Nat)
    (method : String) (db : DB E) : DB E :=
  { db with
    documents := db.documents.map fun d =>
      if d.id = req.document_id then
        { d with
          processed := true,
          total_pages := (totalPages : Int),
          processing_method := method }
      else d }

/-- The common tail of the handler, from the clear step onward. -/
def processPdfIngest {E : Type} (req : ProcessPdfRequest) (env : ProcessEnv E)
    (db : DB E) (analyses : List PageAnalysis)
    (pimages : List ProcessedImage) : PdfResponse × DB E :=
  let db1 := clearedDB req db
  let chunks := createSemanticChunks analyses
  if chunks.length = 0 then (.err noContentMsg, db1)
  else
    match env.chunkEmbedsResult with
    | .error e => (.err e, db1)
    | .ok embeds =>
        match env.insertChunksError with
        | some m => (.err ("Failed to insert chunks: " ++ m), db1)
        | none =>
            let db2 : DB E :=
              { db1 with
                chunks := db1.chunks ++ chunksToInsertOf req chunks embeds }
            let imgStep : Except String (DB E) :=
              if pimages.length = 0 then .ok db2
              else
                match env.imageEmbedsResult with
                | .error e => .error e
                | .ok iembeds =>
                    match env.insertImagesError with
                    | some _ => .ok db2
                    | none =>
                        .ok { db2 with
                          images := db2.images ++
                            imagesToInsertOf req pimages iembeds }
            match imgStep with
            | .error e => (.err e, db2)
            | .ok db3 =>
                let method :=
                  if req.page_images ≠ [] then "vision" else "assistants"
                (.ok chunks.length pimages.length analyses.length method,
                  markProcessed req analyses.length method db3)

/-- The handler body after the document fetch. -/
def processPdfCore {E : Type} (req : ProcessPdfRequest) (env : ProcessEnv E)
    (db : DB E) : PdfResponse × DB E :=
  match pdfAnalyses req env with
  | .error e => (.err e, db)
  | .ok (analyses, pimages) => processPdfIngest req env db analyses pimages

/-- The request handler of process-pdf/index.ts.  Note two facts carried
over faithfully from the source: the document row is fetched by
`document_id` alone (`.eq("id", ...)`, no user filter), and the final
`processed` update is likewise filtered only by `document_id`. -/
def processPdf {E : Type} (req : ProcessPdfRequest) (env : ProcessEnv E)
    (db : DB E) : PdfResponse × DB E :=
  if req.document_id = "" ∨ req.user_id = "" then
    (.badRequest "document_id and user_id are required", db)
  else
    match db.documents.filter (fun d => decide (d.id = req.document_id)) with
    | [_doc] => processPdfCore req env db
    | _ => (.err "Document not found", db)

/-- The precondition under which the handler reaches the processing body:
non-empty ids and exactly one `documents` row with the requested id. -/
def docFound (req : ProcessPdfRequest) {E : Type} (db : DB E) : Prop :=
  req.document_id ≠ "" ∧ req.user_id ≠ "" ∧
    ∃ d, db.documents.filter (fun d => decide (d.id = req.document_id)) = [d]

/-! ## General helper lemmas -/

theorem length_filter_mono {α : Type} {p q : α → Bool}
    (l : List α) (h : ∀ a ∈ l, p a = true → q a = true) :
    (l.filter p).length ≤ (l.filter q).length := by
  induction l with
  | nil => simp
  | cons a l ih =>
    have ih2 := ih fun b hb hpb => h b (List.mem_cons_of_mem a hb) hpb
    by_cases hp : p a = true
    · rw [List.filter_cons_of_pos hp,
        List.filter_cons_of_pos (h a (List.mem_cons_self a l) hp)]
      simpa using ih2
    · rw [List.filter_cons_of_neg (by simpa using hp)]
      cases hq : q a
      · rw [List.filter_cons_of_neg (by simp [hq])]
        exact ih2
      · rw [List.filter_cons_of_pos hq]
        exact Nat.le_succ_of_le ih2

theorem jsTrim_length_le (s : List Char) : (jsTrim s).length ≤ s.length := by
  unfold jsTrim
  have h1 := (List.dropWhile_sublist (p := isWs) (l := s)).length_le
  have h2 := (List.dropWhile_sublist (p := isWs)
    (l := (s.dropWhile isWs).reverse)).length_le
  simp only [List.length_reverse] at *
  omega

theorem jsSliceLast_length_le (n : Nat) (s : List Char) :
    (jsSliceLast n s).length ≤ n := by
  simp only [jsSliceLast, List.length_drop]
  omega

/-! ## C5 / C6 helper lemmas about the match functions -/

theorem matchDocuments_sorted {E : Type} (dist : E → E → ℚ)
    (rows : List (ChunkRow E)) (q : E) (t : ℚ) (k : Nat) (uid : String) :
    List.Sorted (fun x y => y.similarity ≤ x.similarity)
      (matchDocuments dist rows q t k uid) := by
  haveI : IsTotal (ChunkRow E) (fun a b => chunkSim dist q b ≤ chunkSim dist q a) :=
    ⟨fun a b => le_total _ _⟩
  haveI : IsTrans (ChunkRow E) (fun a b => chunkSim dist q b ≤ chunkSim dist q a) :=
    ⟨fun a b c h1 h2 => le_trans h2 h1⟩
  have hs := List.sorted_insertionSort
    (fun a b => chunkSim dist q b ≤ chunkSim dist q a)
    (rows.filter (chunkEligible dist q t uid))
  have ht : List.Sorted (fun a b => chunkSim dist q b ≤ chunkSim dist q a)
      (((rows.filter (chunkEligible dist q t uid)).insertionSort
        (fun a b => chunkSim dist q b ≤ chunkSim dist q a)).take k) :=
    List.Pairwise.sublist (List.take_sublist _ _) hs
  exact ht.map _ (fun a b hab => hab)

theorem matchImages_sorted {E : Type} (dist : E → E → ℚ)
    (rows : List (ImageRow E)) (q : E) (t : ℚ) (k : Nat) (uid : String) :
    List.Sorted (fun x y => y.similarity ≤ x.similarity)
      (matchImages dist rows q t k uid) := by
  haveI : IsTotal (ImageRow E) (fun a b => imgSim dist q b ≤ imgSim dist q a) :=
    ⟨fun a b => le_total _ _⟩
  haveI : IsTrans (ImageRow E) (fun a b => imgSim dist q b ≤ imgSim dist q a) :=
    ⟨fun a b c h1 h2 => le_trans h2 h1⟩
  have hs := List.sorted_insertionSort
    (fun a b => imgSim dist q b ≤ imgSim dist q a)
    (rows.filter (imgEligible dist q t uid))
  have ht : List.Sorted (fun a b => imgSim dist q b ≤ imgSim dist q a)
      (((rows.filter (imgEligible dist q t uid)).insertionSort
        (fun a b => imgSim dist q b ≤ imgSim dist q a)).take k) :=
    List.Pairwise.sublist (List.take_sublist _ _) hs
  exact ht.map _ (fun a b hab => hab)

theorem matchDocuments_length {E : Type} (dist : E → E → ℚ)
    (rows : List (ChunkRow E)) (q : E) (t : ℚ) (k : Nat) (uid : String) :
    (matchDocuments dist rows q t k uid).length =
      min k (rows.filter (chunkEligible dist q t uid)).length := by
  simp [matchDocuments]

theorem matchDocuments_mem {E : Type} {dist : E → E → ℚ}
    {rows : List (ChunkRow E)} {q : E} {t : ℚ} {k : Nat} {uid : String}
    {res : MatchDocResult} (hres : res ∈ matchDocuments dist rows q t k uid) :
    t < res.similarity ∧
      ∃ r ∈ rows, r.user_id = uid ∧ res = projChunkRow dist q r := by
  unfold matchDocuments at hres
  obtain ⟨r, hrtake, hproj⟩ := List.mem_map.mp hres
  have hr1 := List.mem_of_mem_take hrtake
  rw [List.mem_insertionSort] at hr1
  obtain ⟨hrmem, helig⟩ := List.mem_filter.mp hr1
  unfold chunkEligible at helig
  rw [Bool.and_eq_true] at helig
  obtain ⟨huid, hsim⟩ := helig
  have huid2 : r.user_id = uid := of_decide_eq_true huid
  refine ⟨?_, r, hrmem, huid2, hproj.symm⟩
  cases hemb : r.embedding with
  | none => rw [hemb] at hsim; simp at hsim
  | some e =>
    rw [hemb] at hsim
    have : t < 1 - dist e q := of_decide_eq_true hsim
    rw [← hproj]
    simpa [projChunkRow, chunkSim, hemb] using this

theorem matchImages_mem {E : Type} {dist : E → E → ℚ}
    {rows : List (ImageRow E)} {q : E} {t : ℚ} {k : Nat} {uid : String}
    {res : MatchImgResult} (hres : res ∈ matchImages dist rows q t k uid) :
    t < res.similarity ∧
      ∃ r ∈ rows, r.user_id = uid ∧ res = projImageRow dist q r := by
  unfold matchImages at hres
  obtain ⟨r, hrtake, hproj⟩ := List.mem_map.mp hres
  have hr1 := List.mem_of_mem_take hrtake
  rw [List.mem_insertionSort] at hr1
  obtain ⟨hrmem, helig⟩ := List.mem_filter.mp hr1
  unfold imgEligible at helig
  rw [Bool.and_eq_true] at helig
  obtain ⟨huid, hsim⟩ := helig
  have huid2 : r.user_id = uid := of_decide_eq_true huid
  refine ⟨?_, r, hrmem, huid2, hproj.symm⟩
  cases hemb : r.embedding with
  | none => rw [hemb] at hsim; simp at hsim
  | some e =>
    rw [hemb] at hsim
    have : t < 1 - dist e q := of_decide_eq_true hsim
    rw [← hproj]
    simpa [projImageRow, imgSim, hemb] using this

/-- C5: every row returned by `match_documents` / `match_images` has
similarity strictly above the threshold and is the projection of a row
owned by `p_user_id`; the results are ordered by descending similarity
and capped at `match_count`. -/
theorem match_queries_contract {E : Type} (dist : E → E → ℚ)
    (crows : List (ChunkRow E)) (irows : List (ImageRow E)) (q : E)
    (t : ℚ) (kc ki : Nat) (uid : String) :
    (∀ res ∈ matchDocuments dist crows q t kc uid,
        t < res.similarity ∧
          ∃ r ∈ crows, r.user_id = uid ∧ res = projChunkRow dist q r) ∧
      List.Sorted (fun x y => y.similarity ≤ x.similarity)
        (matchDocuments dist crows q t kc uid) ∧
      (matchDocuments dist crows q t kc uid).length ≤ kc ∧
      (∀ res ∈ matchImages dist irows q t ki uid,
        t < res.similarity ∧
          ∃ r ∈ irows, r.user_id = uid ∧ res = projImageRow dist q r) ∧
      List.Sorted (fun x y => y.similarity ≤ x.similarity)
        (matchImages dist irows q t ki uid) ∧
      (matchImages dist irows q t ki uid).length ≤ ki := by
  refine ⟨fun res hres => matchDocuments_mem hres,
    matchDocuments_sorted dist crows q t kc uid, ?_,
    fun res hres => matchImages_mem hres,
    matchImages_sorted dist irows q t ki uid, ?_⟩
  · rw [matchDocuments_length]
    exact Nat.min_le_left _ _
  · simp [matchImages]

/-- C6: for a fixed query, user and count, raising the threshold never
increases the number of rows `match_documents` returns, and for either
threshold the result is sorted by descending similarity. -/
theorem match_documents_threshold_monotone {E : Type} (dist : E → E → ℚ)
    (rows : List (ChunkRow E)) (q : E) (k : Nat) (uid : String)
    (t1 t2 : ℚ) (h12 : t1 ≤ t2) :
    (matchDocuments dist rows q t2 k uid).length ≤
        (matchDocuments dist rows q t1 k uid).length ∧
      List.Sorted (fun x y => y.similarity ≤ x.similarity)
        (matchDocuments dist rows q t1 k uid) ∧
      List.Sorted (fun x y => y.similarity ≤ x.similarity)
        (matchDocuments dist rows q t2 k uid) := by
  refine ⟨?_, matchDocuments_sorted dist rows q t1 k uid,
    matchDocuments_sorted dist rows q t2 k uid⟩
  rw [matchDocuments_length, matchDocuments_length]
  have hf : (rows.filter (chunkEligible dist q t2 uid)).length ≤
      (rows.filter (chunkEligible dist q t1 uid)).length := by
    apply length_filter_mono
    intro r _ hp
    unfold chunkEligible at hp ⊢
    rw [Bool.and_eq_true] at hp ⊢
    refine ⟨hp.1, ?_⟩
    cases hemb : r.embedding with
    | none => rw [hemb] at hp; exact absurd hp.2 (by simp)
    | some e =>
      rw [hemb] at hp
      exact decide_eq_true (lt_of_le_of_lt h12 (of_decide_eq_true hp.2))
  omega

/-! ## C8: parseSteps -/

/-- C8 counterexample: the empty response has neither two numbered
markers nor two blank-line paragraphs, so the claim requires the
single-element list containing the whole (trimmed) response; the code's
falsy-string short-circuit returns the empty list instead. -/
theorem parseSteps_empty_cex :
    countNum [] = 0 ∧ countPaso [] = 0 ∧
      ((splitParas ([] : List Char)).filter (fun p => jsTrim p ≠ [])).length ≤ 1 ∧
      parseSteps [] = [] ∧ parseSteps ([] : List Char) ≠ [jsTrim []] := by
  decide

/-- C8 (amended): `parseSteps` maps `"1. First.\n2. Second."` to
`["1. First.", "2. Second."]`; on a *non-empty* input with fewer than
two numbered markers and fewer than two `Paso N` markers it returns one
trimmed step per retained blank-line paragraph when there are at least
two of them, and otherwise the single-element list containing the
trimmed response.  (The empty input short-circuits to `[]`.) -/
theorem parseSteps_contract :
    parseSteps ("1. First.\n2. Second.".toList) =
        [("1. First.".toList), ("2. Second.".toList)] ∧
      (∀ s : List Char, s ≠ [] → countNum s ≤ 1 → countPaso s ≤ 1 →
        1 < ((splitParas s).filter (fun p => jsTrim p ≠ [])).length →
        parseSteps s = ((splitParas s).filter (fun p => jsTrim p ≠ [])).map jsTrim) ∧
      (∀ s : List Char, s ≠ [] → countNum s ≤ 1 → countPaso s ≤ 1 →
        ((splitParas s).filter (fun p => jsTrim p ≠ [])).length ≤ 1 →
        parseSteps s = [jsTrim s]) := by
  refine ⟨by decide, ?_, ?_⟩
  · intro s hne hcn hcp hpar
    unfold parseSteps
    rw [if_neg hne, if_neg (by omega), if_neg (by omega)]
    simp only
    rw [if_pos hpar]
  · intro s hne hcn hcp hpar
    unfold parseSteps
    rw [if_neg hne, if_neg (by omega), if_neg (by omega)]
    simp only
    rw [if_neg (by omega)]

theorem parseSteps_contract_witness :
    parseSteps ("hola\n\nmundo".toList) = [("hola".toList), ("mundo".toList)] ∧
      parseSteps ("just one".toList) = [("just one".toList)] := by
  constructor
  · have h := parseSteps_contract.2.1 ("hola\n\nmundo".toList)
      (by decide) (by decide) (by decide) (by decide)
    rw [h]
    decide
  · have h := parseSteps_contract.2.2 ("just one".toList)
      (by decide) (by decide) (by decide) (by decide)
    rw [h]
    decide

/-! ## C7: image-reference resolution -/

theorem pickStep_fold (desc : List Char) (used : List Int) :
    ∀ (images : List RelevantImage) (st : Option RelevantImage × Nat),
      (∀ i, st.1 = some i → i.id ∉ used ∧ st.2 = matchScore desc i ∧ 0 < st.2) →
      (∀ i, (images.foldl (pickStep desc used) st).1 = some i →
          (i ∈ images ∨ st.1 = some i) ∧ i.id ∉ used ∧
            (images.foldl (pickStep desc used) st).2 = matchScore desc i ∧
            0 < (images.foldl (pickStep desc used) st).2) ∧
        st.2 ≤ (images.foldl (pickStep desc used) st).2 ∧
        (∀ j ∈ images, j.id ∉ used →
          matchScore desc j ≤ (images.foldl (pickStep desc used) st).2) := by
  intro images
  induction images with
  | nil =>
    intro st hst
    refine ⟨fun i hi => ⟨Or.inr hi, hst i hi⟩, le_refl _, fun j hj => ?_⟩
    exact absurd hj (List.not_mem_nil j)
  | cons img rest ih =>
    intro st hst
    by_cases hmem : img.id ∈ used
    · have hstep : pickStep desc used st img = st := by simp [pickStep, hmem]
      simp only [List.foldl_cons, hstep]
      obtain ⟨h1, h2, h3⟩ := ih st hst
      refine ⟨fun i hi => ?_, h2, fun j hj hju => ?_⟩
      · obtain ⟨ho, hrest⟩ := h1 i hi
        exact ⟨ho.imp_left (List.mem_cons_of_mem img), hrest⟩
      · rcases List.mem_cons.mp hj with hj | hj
        · exact absurd (hj ▸ hmem) hju
        · exact h3 j hj hju
    · by_cases hlt : st.2 < matchScore desc img
      · have hstep : pickStep desc used st img = (some img, matchScore desc img) := by
          simp [pickStep, hmem, hlt]
        simp only [List.foldl_cons, hstep]
        have hpre : ∀ i, (some img, matchScore desc img).1 = some i →
            i.id ∉ used ∧ (some img, matchScore desc img).2 = matchScore desc i ∧
              0 < (some img, matchScore desc img).2 := by
          intro i hi
          cases hi
          exact ⟨hmem, rfl, Nat.lt_of_le_of_lt (Nat.zero_le _) hlt⟩
        obtain ⟨h1, h2, h3⟩ := ih (some img, matchScore desc img) hpre
        refine ⟨fun i hi => ?_, le_of_lt (lt_of_lt_of_le hlt h2), fun j hj hju => ?_⟩
        · obtain ⟨ho, hrest⟩ := h1 i hi
          rcases ho with ho | ho
          · exact ⟨Or.inl (List.mem_cons_of_mem img ho), hrest⟩
          · cases ho
            exact ⟨Or.inl (List.mem_cons_self img rest), hrest⟩
        · rcases List.mem_cons.mp hj with hj | hj
          · cases hj
            exact h2
          · exact h3 j hj hju
      · have hstep : pickStep desc used st img = st := by
          simp [pickStep, hmem, hlt]
        simp only [List.foldl_cons, hstep]
        obtain ⟨h1, h2, h3⟩ := ih st hst
        refine ⟨fun i hi => ?_, h2, fun j hj hju => ?_⟩
        · obtain ⟨ho, hrest⟩ := h1 i hi
          exact ⟨ho.imp_left (List.mem_cons_of_mem img), hrest⟩
        · rcases List.mem_cons.mp hj with hj | hj
          · cases hj
            exact le_trans (Nat.le_of_not_lt hlt) h2
          · exact h3 j hj hju

theorem pickBest_spec {desc : List Char} {used : List Int}
    {images : List RelevantImage} {img : RelevantImage} {s : Nat}
    (h : pickBest desc used images = (some img, s)) :
    img ∈ images ∧ img.id ∉ used ∧ s = matchScore desc img ∧ 0 < s ∧
      ∀ j ∈ images, j.id ∉ used → matchScore desc j ≤ s := by
  have hfold := pickStep_fold desc used images (none, 0) (by intro i hi; simp at hi)
  obtain ⟨h1, _, h3⟩ := hfold
  rw [pickBest] at h
  have hfst : (images.foldl (pickStep desc used) (none, 0)).1 = some img := by
    rw [h]
  have hsnd : (images.foldl (pickStep desc used) (none, 0)).2 = s := by
    rw [h]
  obtain ⟨ho, hid, hsc, hpos⟩ := h1 img hfst
  rcases ho with ho | ho
  · refine ⟨ho, hid, ?_, ?_, fun j hj hju => ?_⟩
    · rw [← hsnd, hsc]
    · rw [← hsnd]
      exact hpos
    · rw [← hsnd]
      exact h3 j hj hju
  · simp at ho

theorem matchTags_state (images : List RelevantImage) :
    ∀ (ts : List (List Char)) (matched : List AttachedImage) (used : List Int),
      (matchTags images ts (matched, used)).1.length + used.length =
          (matchTags images ts (matched, used)).2.length + matched.length ∧
        (used.Nodup → (matchTags images ts (matched, used)).2.Nodup) ∧
        (∀ a ∈ (matchTags images ts (matched, used)).1,
          a ∈ matched ∨ ∃ img ∈ images, a = attachOf img ∧
            ∃ t ∈ ts, 0 < matchScore (jsTrim (t.map toLowerAscii)) img) := by
  intro ts
  induction ts with
  | nil =>
    intro matched used
    refine ⟨by simp [matchTags, Nat.add_comm], fun h => by simpa [matchTags] using h, ?_⟩
    intro a ha
    rw [matchTags] at ha
    exact Or.inl ha
  | cons t ts ih =>
    intro matched used
    rw [matchTags]
    rcases hpb : pickBest (jsTrim (t.map toLowerAscii)) used images with ⟨ob, s⟩
    cases ob with
    | none =>
      simp only
      obtain ⟨h1, h2, h3⟩ := ih matched used
      refine ⟨h1, h2, fun a ha => ?_⟩
      rcases h3 a ha with ha2 | ⟨img, himg, hao, t2, ht2, hsc⟩
      · exact Or.inl ha2
      · exact Or.inr ⟨img, himg, hao, t2, List.mem_cons_of_mem t ht2, hsc⟩
    | some img =>
      obtain ⟨himgmem, hid, hsc, hpos, _⟩ := pickBest_spec hpb
      simp only [if_pos hpos]
      obtain ⟨h1, h2, h3⟩ := ih (matched ++ [attachOf img]) (img.id :: used)
      refine ⟨?_, ?_, fun a ha => ?_⟩
      · simp only [List.length_cons, List.length_append, List.length_nil] at h1 ⊢
        omega
      · intro hnd
        exact h2 (List.nodup_cons.mpr ⟨hid, hnd⟩)
      · rcases h3 a ha with ha2 | ⟨img2, himg2, hao, t2, ht2, hsc2⟩
        · rcases List.mem_append.mp ha2 with ha3 | ha3
          · exact Or.inl ha3
          · have ha4 : a = attachOf img := by simpa using ha3
            exact Or.inr ⟨img, himgmem, ha4, t,
              List.mem_cons_self t ts, hsc ▸ hpos⟩
        · exact Or.inr ⟨img2, himg2, hao, t2, List.mem_cons_of_mem t ht2, hsc2⟩

/-- C7 (amended): each tag is resolved by `pickBest` to an unused image
of maximal code score (description words longer than 3 characters
related to a caption word by substring containment in either direction,
plus 2 for a type-name mention), attached only when that score is
strictly positive; across the whole loop each attachment consumes one
fresh image id (ids never repeat and their count equals the attachment
count); and when the response contains no tags the result is exactly
the first two retrieved images with similarity strictly above 0.4. -/
theorem image_resolution_contract :
    (∀ (desc : List Char) (used : List Int) (images : List RelevantImage)
        (img : RelevantImage) (s : Nat),
        pickBest desc used images = (some img, s) →
        img ∈ images ∧ img.id ∉ used ∧ s = matchScore desc img ∧ 0 < s ∧
          ∀ j ∈ images, j.id ∉ used → matchScore desc j ≤ s) ∧
      (∀ (images : List RelevantImage) (ts : List (List Char)),
        (matchTags images ts ([], [])).1.length =
            (matchTags images ts ([], [])).2.length ∧
          (matchTags images ts ([], [])).2.Nodup ∧
          ∀ a ∈ (matchTags images ts ([], [])).1,
            ∃ img ∈ images, a = attachOf img ∧
              ∃ t ∈ ts, 0 < matchScore (jsTrim (t.map toLowerAscii)) img) ∧
      (∀ (response : List Char) (images : List RelevantImage),
        findTags response = [] →
        matchImagesFromResponse response images =
          ((images.filter (fun i => (0.4 : ℚ) < i.similarity)).take 2).map
            attachOf) := by
  refine ⟨fun desc used images img s h => pickBest_spec h,
    fun images ts => ?_, fun response images hft => ?_⟩
  · obtain ⟨h1, h2, h3⟩ := matchTags_state images ts [] []
    refine ⟨by simpa using h1, h2 List.nodup_nil, fun a ha => ?_⟩
    rcases h3 a ha with ha2 | ha2
    · exact absurd ha2 (List.not_mem_nil a)
    · exact ha2
  · cases images with
    | nil => simp [matchImagesFromResponse, hft, matchTags]
    | cons i rest => simp [matchImagesFromResponse, hft, matchTags]

/-- Scoring exactly as the claim words it: the number of words longer
than 3 characters occurring in both the tag description and the image
caption, plus the literal type-name bonus. -/
def sharedWordScore (description : List Char) (img : RelevantImage) : Nat :=
  let captionWords := splitWs (img.ai_caption.map toLowerAscii)
  (splitWs description).countP
      (fun w => 3 < w.length && captionWords.contains w) +
    (if jsIncludes description (img.image_type.map toLowerAscii) then 2 else 0)

def cexImage : RelevantImage :=
  ⟨7, ("http://x/rango.png".toList), ("rango".toList), ("photo".toList), 4,
    (1 : ℚ) / 10⟩

def cexResponse : List Char := "ver [IMAGEN: rangos] aqui".toList

/-- C7 counterexample: the only tag description is "rangos" and the only
caption is "rango", which share no word, so under the claim's scoring
the score is 0 and no image may be attached (the fallback does not
apply: the image's similarity is below 0.4, and a tag is present).  The
code scores by substring containment, obtains 1, and attaches the
image. -/
theorem image_resolution_shared_word_cex :
    findTags cexResponse = [(" rangos".toList)] ∧
      sharedWordScore (jsTrim ((" rangos".toList).map toLowerAscii)) cexImage = 0 ∧
      cexImage.similarity < (0.4 : ℚ) ∧
      matchImagesFromResponse cexResponse [cexImage] = [attachOf cexImage] := by
  refine ⟨by decide, by decide, ?_, by decide⟩
  show (1 : ℚ) / 10 < (0.4 : ℚ)
  norm_num

theorem image_resolution_contract_witness :
    matchImagesFromResponse ("sin etiquetas".toList) [cexImage] =
      (([cexImage].filter (fun i => (0.4 : ℚ) < i.similarity)).take 2).map
        attachOf :=
  image_resolution_contract.2.2 ("sin etiquetas".toList) [cexImage] (by decide)

/-! ## C3: chunk length bound -/

theorem paraChunksAux_bound (page : Int) (hasD : Bool) (dd : Option (List Char)) :
    ∀ (paras : List (List Char)) (cur : List Char) (idx : Nat),
      (∀ p ∈ paras, p.length ≤ targetChunkSize - 2) →
      cur.length ≤ targetChunkSize + overlap →
      ∀ c ∈ paraChunksAux page hasD dd paras cur idx,
        c.content.length ≤ targetChunkSize + overlap := by
  intro paras
  induction paras with
  | nil =>
    intro cur idx _ hcur c hc
    rw [paraChunksAux] at hc
    by_cases ht : jsTrim cur ≠ []
    · rw [if_pos ht] at hc
      have hce : c = ⟨jsTrim cur, page, idx, hasD, dd⟩ := by simpa using hc
      subst hce
      exact le_trans (jsTrim_length_le cur) hcur
    · rw [if_neg ht] at hc
      simp at hc
  | cons para rest ih =>
    intro cur idx hp hcur c hc
    have hpara : para.length ≤ targetChunkSize - 2 :=
      hp para (List.mem_cons_self _ _)
    have hrest : ∀ p ∈ rest, p.length ≤ targetChunkSize - 2 :=
      fun p hp2 => hp p (List.mem_cons_of_mem _ hp2)
    rw [paraChunksAux] at hc
    by_cases hcond : targetChunkSize < cur.length + para.length ∧ 0 < cur.length
    · rw [if_pos hcond] at hc
      rcases List.mem_cons.mp hc with hc | hc
      · subst hc
        exact le_trans (jsTrim_length_le cur) hcur
      · refine ih _ _ hrest ?_ c hc
        have h1 := jsSliceLast_length_le overlap cur
        simp only [List.length_append, List.length_cons, List.length_nil]
        unfold targetChunkSize overlap at *
        omega
    · rw [if_neg hcond] at hc
      refine ih _ _ hrest ?_ c hc
      by_cases hnil : cur = []
      · rw [if_pos hnil]
        unfold targetChunkSize overlap at *
        omega
      · rw [if_neg hnil]
        have h0 : 0 < cur.length := List.length_pos.mpr hnil
        have h8 : ¬(targetChunkSize < cur.length + para.length) :=
          fun hlt => hcond ⟨hlt, h0⟩
        simp only [List.length_append, List.length_cons, List.length_nil]
        unfold targetChunkSize overlap at *
        omega

theorem windowChunks_bound (page : Int) (hasD : Bool) (dd : Option (List Char))
    (pageText : List Char) :
    ∀ c ∈ windowChunks page hasD dd pageText,
      c.content.length ≤ targetChunkSize := by
  intro c hc
  unfold windowChunks at hc
  simp only [List.mem_filterMap, List.mem_range] at hc
  obtain ⟨k, _, hcc⟩ := hc
  by_cases h50 : 50 < (jsTrim ((pageText.drop
      (k * (targetChunkSize - overlap))).take targetChunkSize)).length
  · rw [if_pos h50] at hcc
    have hce : c = ⟨jsTrim ((pageText.drop
        (k * (targetChunkSize - overlap))).take targetChunkSize),
        page, k, hasD, dd⟩ := by
      have h2 := hcc
      simp only [Option.some.injEq] at h2
      exact h2.symm
    subst hce
    exact le_trans (jsTrim_length_le _)
      (by simp only [List.length_take]; omega)
  · rw [if_neg h50] at hcc
    simp at hcc

theorem pageProseChunks_bound (a : PageAnalysis)
    (hp : ∀ p ∈ pageParagraphs a, p.length ≤ targetChunkSize - 2) :
    ∀ c ∈ pageProseChunks a, c.content.length ≤ targetChunkSize + overlap := by
  intro c hc
  unfold pageProseChunks at hc
  simp only at hc
  by_cases hlen : 1 < (pageParagraphs a).length
  · rw [if_pos hlen] at hc
    exact paraChunksAux_bound _ _ _ _ _ _ hp (by simp) c hc
  · rw [if_neg hlen] at hc
    exact le_trans (windowChunks_bound _ _ _ _ c hc) (Nat.le_add_right _ _)

/-- C3 (amended): every chunk built from analyses without tables and
whose retained blank-line paragraphs are each at most `targetChunkSize - 2`
characters long has content length at most target size plus overlap;
the counterexample shows the unconditional claim fails as soon as one
paragraph exceeds the target (the whole paragraph is emitted as one
chunk). -/
theorem chunk_length_bound (analyses : List PageAnalysis)
    (hT : ∀ a ∈ analyses, a.tables = [])
    (hP : ∀ a ∈ analyses, ∀ p ∈ pageParagraphs a,
      p.length ≤ targetChunkSize - 2) :
    ∀ c ∈ createSemanticChunks analyses,
      c.content.length ≤ targetChunkSize + overlap := by
  have main : ∀ (l : List PageAnalysis), (∀ a ∈ l, a.tables = []) →
      (∀ a ∈ l, ∀ p ∈ pageParagraphs a, p.length ≤ targetChunkSize - 2) →
      ∀ (acc : List Chunk),
      (∀ c ∈ acc, c.content.length ≤ targetChunkSize + overlap) →
      ∀ c ∈ l.foldl
        (fun acc a =>
          if jsTrim a.text_content = [] then acc
          else
            let acc1 := acc ++ pageProseChunks a
            acc1 ++ tableChunksAux a.page_number a.tables acc1.length)
        acc,
        c.content.length ≤ targetChunkSize + overlap := by
    intro l
    induction l with
    | nil =>
      intro _ _ acc hacc c hc
      exact hacc c (by simp only [List.foldl_nil] at hc; exact hc)
    | cons a l ih =>
      intro hT2 hP2 acc hacc c hc
      rw [List.foldl_cons] at hc
      refine ih (fun b hb => hT2 b (List.mem_cons_of_mem _ hb))
        (fun b hb => hP2 b (List.mem_cons_of_mem _ hb)) _ ?_ c hc
      intro c2 hc2
      by_cases hskip : jsTrim a.text_content = []
      · rw [if_pos hskip] at hc2
        exact hacc c2 hc2
      · rw [if_neg hskip] at hc2
        rw [hT2 a (List.mem_cons_self _ _)] at hc2
        simp only [tableChunksAux, List.append_nil] at hc2
        rcases List.mem_append.mp hc2 with h | h
        · exact hacc c2 h
        · exact pageProseChunks_bound a (hP2 a (List.mem_cons_self _ _)) c2 h
  exact main analyses hT hP [] (by simp)

def oversizedPage : PageAnalysis :=
  ⟨2, List.replicate 901 'a' ++ '\n' :: '\n' :: List.replicate 60 'b',
    [], [], []⟩

set_option maxRecDepth 8000 in
/-- C3 counterexample: a page with a 901-character paragraph followed by
a second paragraph emits that whole paragraph as a single chunk of 901
characters, exceeding target size (800) plus overlap (100). -/
theorem chunk_length_cex :
    ∃ c ∈ createSemanticChunks [oversizedPage],
      targetChunkSize + overlap < c.content.length := by
  decide

def smallPage : PageAnalysis := ⟨1, List.replicate 60 'x', [], [], []⟩

theorem chunk_length_bound_witness :
    (Chunk.mk (List.replicate 60 'x') 1 0 false none).content.length ≤
      targetChunkSize + overlap :=
  chunk_length_bound [smallPage] (by decide) (by decide) _ (by decide)

/-! ## C4: page-level diagram tagging -/

theorem paraChunksAux_fields (page : Int) (hasD : Bool) (dd : Option (List Char)) :
    ∀ (paras : List (List Char)) (cur : List Char) (idx : Nat),
      ∀ c ∈ paraChunksAux page hasD dd paras cur idx,
        c.page_number = page ∧ c.has_diagram = hasD ∧
          c.diagram_description = dd := by
  intro paras
  induction paras with
  | nil =>
    intro cur idx c hc
    rw [paraChunksAux] at hc
    by_cases ht : jsTrim cur ≠ []
    · rw [if_pos ht] at hc
      have hce : c = ⟨jsTrim cur, page, idx, hasD, dd⟩ := by simpa using hc
      subst hce
      exact ⟨rfl, rfl, rfl⟩
    · rw [if_neg ht] at hc
      simp at hc
  | cons para rest ih =>
    intro cur idx c hc
    rw [paraChunksAux] at hc
    by_cases hcond : targetChunkSize < cur.length + para.length ∧ 0 < cur.length
    · rw [if_pos hcond] at hc
      rcases List.mem_cons.mp hc with hc | hc
      · subst hc
        exact ⟨rfl, rfl, rfl⟩
      · exact ih _ _ c hc
    · rw [if_neg hcond] at hc
      exact ih _ _ c hc

theorem windowChunks_fields (page : Int) (hasD : Bool) (dd : Option (List Char))
    (pageText : List Char) :
    ∀ c ∈ windowChunks page hasD dd pageText,
      c.page_number = page ∧ c.has_diagram = hasD ∧
        c.diagram_description = dd := by
  intro c hc
  unfold windowChunks at hc
  simp only [List.mem_filterMap, List.mem_range] at hc
  obtain ⟨k, _, hcc⟩ := hc
  by_cases h50 : 50 < (jsTrim ((pageText.drop
      (k * (targetChunkSize - overlap))).take targetChunkSize)).length
  · rw [if_pos h50] at hcc
    have hce : c = ⟨jsTrim ((pageText.drop
        (k * (targetChunkSize - overlap))).take targetChunkSize),
        page, k, hasD, dd⟩ := by
      have h2 := hcc
      simp only [Option.some.injEq] at h2
      exact h2.symm
    subst hce
    exact ⟨rfl, rfl, rfl⟩
  · rw [if_neg h50] at hcc
    simp at hcc

theorem pageProseChunks_fields (a : PageAnalysis) :
    ∀ c ∈ pageProseChunks a,
      c.page_number = a.page_number ∧
        c.has_diagram = decide (a.diagrams ≠ []) ∧
        c.diagram_description =
          (if a.diagrams ≠ [] then
            some (joinSemi (a.diagrams.map (·.description)))
          else none) := by
  intro c hc
  unfold pageProseChunks at hc
  simp only at hc
  by_cases hlen : 1 < (pageParagraphs a).length
  · rw [if_pos hlen] at hc
    exact paraChunksAux_fields _ _ _ _ _ _ c hc
  · rw [if_neg hlen] at hc
    exact windowChunks_fields _ _ _ _ c hc

theorem tableChunksAux_shape (page : Int) :
    ∀ (ts : List TableEntry) (n : Nat), ∀ c ∈ tableChunksAux page ts n,
      (∃ rest, c.content = tablaMark ++ rest) ∧ c.has_diagram = false ∧
        c.diagram_description = none := by
  intro ts
  induction ts with
  | nil =>
    intro n c hc
    rw [tableChunksAux] at hc
    simp at hc
  | cons t ts ih =>
    intro n c hc
    rw [tableChunksAux] at hc
    by_cases hct : t.content ≠ []
    · rw [if_pos hct] at hc
      rcases List.mem_cons.mp hc with hc | hc
      · subst hc
        exact ⟨⟨(if t.title = [] then sinTitulo else t.title) ++
          ((']' :: '\n' :: []) ++ t.content), by simp [List.append_assoc]⟩,
          rfl, rfl⟩
      · exact ih _ c hc
    · rw [if_neg hct] at hc
      exact ih _ c hc

/-- C4 (amended): every chunk produced by `createSemanticChunks` is
either a standalone table chunk — whose content starts with the
`[TABLA: ` marker and which always carries `has_diagram = false` and no
diagram description, even on a page with diagrams — or a prose chunk of
one of the input analyses, tagged `has_diagram` exactly when that
analysis has diagrams, with `diagram_description` the "; "-joined
concatenation of all that page's diagram descriptions. -/
theorem chunk_diagram_tagging (analyses : List PageAnalysis) :
    ∀ c ∈ createSemanticChunks analyses,
      ((∃ rest, c.content = tablaMark ++ rest) ∧ c.has_diagram = false ∧
          c.diagram_description = none) ∨
        ∃ a ∈ analyses, c.page_number = a.page_number ∧
          c.has_diagram = decide (a.diagrams ≠ []) ∧
          c.diagram_description =
            (if a.diagrams ≠ [] then
              some (joinSemi (a.diagrams.map (·.description)))
            else none) := by
  have main : ∀ (l : List PageAnalysis) (acc : List Chunk),
      ∀ c ∈ l.foldl
        (fun acc a =>
          if jsTrim a.text_content = [] then acc
          else
            let acc1 := acc ++ pageProseChunks a
            acc1 ++ tableChunksAux a.page_number a.tables acc1.length)
        acc,
        c ∈ acc ∨
          ((∃ rest, c.content = tablaMark ++ rest) ∧ c.has_diagram = false ∧
            c.diagram_description = none) ∨
          ∃ a ∈ l, c.page_number = a.page_number ∧
            c.has_diagram = decide (a.diagrams ≠ []) ∧
            c.diagram_description =
              (if a.diagrams ≠ [] then
                some (joinSemi (a.diagrams.map (·.description)))
              else none) := by
    intro l
    induction l with
    | nil =>
      intro acc c hc
      exact Or.inl (by simpa using hc)
    | cons a l ih =>
      intro acc c hc
      rw [List.foldl_cons] at hc
      rcases ih _ c hc with hacc | htab | ⟨a2, ha2, hrest⟩
      · by_cases hskip : jsTrim a.text_content = []
        · rw [if_pos hskip] at hacc
          exact Or.inl hacc
        · rw [if_neg hskip] at hacc
          simp only at hacc
          rcases List.mem_append.mp hacc with h2 | h2
          · rcases List.mem_append.mp h2 with h3 | h3
            · exact Or.inl h3
            · exact Or.inr (Or.inr ⟨a, List.mem_cons_self a l,
                pageProseChunks_fields a c h3⟩)
          · exact Or.inr (Or.inl (tableChunksAux_shape _ _ _ c h2))
      · exact Or.inr (Or.inl htab)
      · exact Or.inr (Or.inr ⟨a2, List.mem_cons_of_mem a ha2, hrest⟩)
  intro c hc
  rcases main analyses [] c hc with h | h | h
  · exact absurd h (List.not_mem_nil c)
  · exact Or.inl h
  · exact Or.inr h

def diagramTablePage : PageAnalysis :=
  ⟨3, List.replicate 60 'x',
    [⟨("esquema de conexiones".toList), ("top".toList), ("diagram".toList), []⟩],
    [⟨("T1".toList), ("celda".toList)⟩], []⟩

/-- C4 counterexample: a page with one diagram and one table produces a
table chunk carrying `has_diagram = false`, so not every chunk emitted
for a diagram-bearing page is tagged `has_diagram = true`. -/
theorem chunk_diagram_tagging_cex :
    diagramTablePage.diagrams ≠ [] ∧
      ∃ c ∈ createSemanticChunks [diagramTablePage],
        c.page_number = diagramTablePage.page_number ∧
          c.has_diagram = false := by
  decide

theorem chunk_diagram_tagging_witness :
    ((∃ rest, (Chunk.mk (List.replicate 60 'x') 3 0 true
          (some ("esquema de conexiones".toList))).content =
        tablaMark ++ rest) ∧
      (Chunk.mk (List.replicate 60 'x') 3 0 true
          (some ("esquema de conexiones".toList))).has_diagram = false ∧
      (Chunk.mk (List.replicate 60 'x') 3 0 true
          (some ("esquema de conexiones".toList))).diagram_description = none) ∨
    ∃ a ∈ [diagramTablePage],
      (Chunk.mk (List.replicate 60 'x') 3 0 true
          (some ("esquema de conexiones".toList))).page_number = a.page_number ∧
        (Chunk.mk (List.replicate 60 'x') 3 0 true
            (some ("esquema de conexiones".toList))).has_diagram =
          decide (a.diagrams ≠ []) ∧
        (Chunk.mk (List.replicate 60 'x') 3 0 true
            (some ("esquema de conexiones".toList))).diagram_description =
          (if a.diagrams ≠ [] then
            some (joinSemi (a.diagrams.map (·.description)))
          else none) :=
  chunk_diagram_tagging [diagramTablePage] _ (by decide)

/-! ## Witnesses for C5 / C6 -/

def wDist : Unit → Unit → ℚ := fun _ _ => 0

def wChunkRow : ChunkRow Unit :=
  ⟨1, "u1", "d1", [], 1, some 0, some false, none, some ()⟩

theorem match_queries_contract_witness :
    (0 : ℚ) < (projChunkRow wDist () wChunkRow).similarity ∧
      ∃ r ∈ [wChunkRow], r.user_id = "u1" ∧
        projChunkRow wDist () wChunkRow = projChunkRow wDist () r :=
  (match_queries_contract wDist [wChunkRow] [] () 0 3 3 "u1").1
    (projChunkRow wDist () wChunkRow)
    (by
      have helig : chunkEligible wDist () 0 "u1" wChunkRow = true := by
        simp [chunkEligible, wChunkRow, wDist]
      have heq : matchDocuments wDist [wChunkRow] () 0 3 "u1" =
          [projChunkRow wDist () wChunkRow] := by
        simp [matchDocuments, List.filter, helig, List.insertionSort,
          List.orderedInsert]
      rw [heq]
      exact List.mem_singleton.mpr rfl)

theorem match_documents_threshold_monotone_witness :
    (matchDocuments wDist ([] : List (ChunkRow Unit)) () 1 3 "u1").length ≤
        (matchDocuments wDist ([] : List (ChunkRow Unit)) () 0 3 "u1").length ∧
      List.Sorted (fun x y => y.similarity ≤ x.similarity)
        (matchDocuments wDist ([] : List (ChunkRow Unit)) () 0 3 "u1") ∧
      List.Sorted (fun x y => y.similarity ≤ x.similarity)
        (matchDocuments wDist ([] : List (ChunkRow Unit)) () 1 3 "u1") :=
  match_documents_threshold_monotone wDist [] () 3 "u1" 0 1 (by norm_num)

/-! ## Handler stage lemmas (C1 / C2 / C9 / C10) -/

theorem processPdf_found {E : Type} {req : ProcessPdfRequest}
    {env : ProcessEnv E} {db : DB E} (h : docFound req db) :
    processPdf req env db = processPdfCore req env db := by
  obtain ⟨hid, huid, d, hf⟩ := h
  unfold processPdf
  rw [if_neg (by simp [hid, huid]), hf]

theorem processPdfCore_ok {E : Type} {req : ProcessPdfRequest}
    {env : ProcessEnv E} {db : DB E} {analyses : List PageAnalysis}
    {pimages : List ProcessedImage}
    (hA : pdfAnalyses req env = .ok (analyses, pimages)) :
    processPdfCore req env db = processPdfIngest req env db analyses pimages := by
  unfold processPdfCore
  rw [hA]

theorem processPdfCore_error {E : Type} {req : ProcessPdfRequest}
    {env : ProcessEnv E} {db : DB E} {e : String}
    (hA : pdfAnalyses req env = .error e) :
    processPdfCore req env db = (.err e, db) := by
  unfold processPdfCore
  rw [hA]

theorem ingest_zero {E : Type} {req : ProcessPdfRequest} {env : ProcessEnv E}
    {db : DB E} {analyses : List PageAnalysis} {pimages : List ProcessedImage}
    (h : createSemanticChunks analyses = []) :
    processPdfIngest req env db analyses pimages =
      (.err noContentMsg, clearedDB req db) := by
  simp only [processPdfIngest, h]
  rfl

theorem ingest_embed_error {E : Type} {req : ProcessPdfRequest}
    {env : ProcessEnv E} {db : DB E} {analyses : List PageAnalysis}
    {pimages : List ProcessedImage} {e : String}
    (h : createSemanticChunks analyses ≠ [])
    (he : env.chunkEmbedsResult = .error e) :
    processPdfIngest req env db analyses pimages =
      (.err e, clearedDB req db) := by
  simp only [processPdfIngest, he]
  rw [if_neg (fun hh => h (List.length_eq_zero.mp hh))]

theorem ingest_insert_error {E : Type} {req : ProcessPdfRequest}
    {env : ProcessEnv E} {db : DB E} {analyses : List PageAnalysis}
    {pimages : List ProcessedImage} {embeds : List E} {m : String}
    (h : createSemanticChunks analyses ≠ [])
    (he : env.chunkEmbedsResult = .ok embeds)
    (hi : env.insertChunksError = some m) :
    processPdfIngest req env db analyses pimages =
      (.err ("Failed to insert chunks: " ++ m), clearedDB req db) := by
  simp only [processPdfIngest, he, hi]
  rw [if_neg (fun hh => h (List.length_eq_zero.mp hh))]

theorem ingest_img_embed_error {E : Type} {req : ProcessPdfRequest}
    {env : ProcessEnv E} {db : DB E} {analyses : List PageAnalysis}
    {pimages : List ProcessedImage} {embeds : List E} {e : String}
    (h : createSemanticChunks analyses ≠ [])
    (he : env.chunkEmbedsResult = .ok embeds)
    (hi : env.insertChunksError = none)
    (hp : pimages ≠ [])
    (hie : env.imageEmbedsResult = .error e) :
    processPdfIngest req env db analyses pimages =
      (.err e,
        { clearedDB req db with
          chunks := (clearedDB req db).chunks ++
            chunksToInsertOf req (createSemanticChunks analyses) embeds }) := by
  simp only [processPdfIngest, he, hi, hie]
  rw [if_neg (fun hh => h (List.length_eq_zero.mp hh)),
    if_neg (fun hh => hp (List.length_eq_zero.mp hh))]

theorem ingest_success_noimages {E : Type} {req : ProcessPdfRequest}
    {env : ProcessEnv E} {db : DB E} {analyses : List PageAnalysis}
    {embeds : List E}
    (h : createSemanticChunks analyses ≠ [])
    (he : env.chunkEmbedsResult = .ok embeds)
    (hi : env.insertChunksError = none) :
    processPdfIngest req env db analyses [] =
      (.ok (createSemanticChunks analyses).length 0 analyses.length
          (if req.page_images ≠ [] then "vision" else "assistants"),
        markProcessed req analyses.length
          (if req.page_images ≠ [] then "vision" else "assistants")
          { clearedDB req db with
            chunks := (clearedDB req db).chunks ++
              chunksToInsertOf req (createSemanticChunks analyses) embeds }) := by
  simp only [processPdfIngest, he, hi]
  rw [if_neg (fun hh => h (List.length_eq_zero.mp hh))]
  rfl

theorem ingest_success_img_insert_error {E : Type} {req : ProcessPdfRequest}
    {env : ProcessEnv E} {db : DB E} {analyses : List PageAnalysis}
    {pimages : List ProcessedImage} {embeds iembeds : List E} {m : String}
    (h : createSemanticChunks analyses ≠ [])
    (he : env.chunkEmbedsResult = .ok embeds)
    (hi : env.insertChunksError = none)
    (hp : pimages ≠ [])
    (hie : env.imageEmbedsResult = .ok iembeds)
    (hii : env.insertImagesError = some m) :
    processPdfIngest req env db analyses pimages =
      (.ok (createSemanticChunks analyses).length pimages.length
          analyses.length
          (if req.page_images ≠ [] then "vision" else "assistants"),
        markProcessed req analyses.length
          (if req.page_images ≠ [] then "vision" else "assistants")
          { clearedDB req db with
            chunks := (clearedDB req db).chunks ++
              chunksToInsertOf req (createSemanticChunks analyses) embeds }) := by
  simp only [processPdfIngest, he, hi, hie, hii]
  rw [if_neg (fun hh => h (List.length_eq_zero.mp hh)),
    if_neg (fun hh => hp (List.length_eq_zero.mp hh))]

theorem ingest_success_images {E : Type} {req : ProcessPdfRequest}
    {env : ProcessEnv E} {db : DB E} {analyses : List PageAnalysis}
    {pimages : List ProcessedImage} {embeds iembeds : List E}
    (h : createSemanticChunks analyses ≠ [])
    (he : env.chunkEmbedsResult = .ok embeds)
    (hi : env.insertChunksError = none)
    (hp : pimages ≠ [])
    (hie : env.imageEmbedsResult = .ok iembeds)
    (hii : env.insertImagesError = none) :
    processPdfIngest req env db analyses pimages =
      (.ok (createSemanticChunks analyses).length pimages.length
          analyses.length
          (if req.page_images ≠ [] then "vision" else "assistants"),
        markProcessed req analyses.length
          (if req.page_images ≠ [] then "vision" else "assistants")
          { clearedDB req db with
            chunks := (clearedDB req db).chunks ++
              chunksToInsertOf req (createSemanticChunks analyses) embeds,
            images := (clearedDB req db).images ++
              imagesToInsertOf req pimages iembeds }) := by
  simp only [processPdfIngest, he, hi, hie, hii]
  rw [if_neg (fun hh => h (List.length_eq_zero.mp hh)),
    if_neg (fun hh => hp (List.length_eq_zero.mp hh))]

/-- Full case analysis of one handler run: a bad request leaves the
database untouched, an error response leaves the documents table
untouched, and a success response reports the chunk/image/page counts
of the run and maps the `processed` update over the documents table. -/
theorem processPdf_shape {E : Type} (req : ProcessPdfRequest)
    (env : ProcessEnv E) (db : DB E) :
    ((∃ e, (processPdf req env db).1 = .badRequest e) ∧
        (processPdf req env db).2 = db) ∨
      ((∃ e, (processPdf req env db).1 = .err e) ∧
        (processPdf req env db).2.documents = db.documents) ∨
      (∃ analyses pimages embeds,
        pdfAnalyses req env = .ok (analyses, pimages) ∧
          env.chunkEmbedsResult = .ok embeds ∧
          env.insertChunksError = none ∧
          createSemanticChunks analyses ≠ [] ∧
          (processPdf req env db).1 =
            .ok (createSemanticChunks analyses).length pimages.length
              analyses.length
              (if req.page_images ≠ [] then "vision" else "assistants") ∧
          (processPdf req env db).2.documents =
            db.documents.map fun d =>
              if d.id = req.document_id then
                { d with
                  processed := true,
                  total_pages := (analyses.length : Int),
                  processing_method :=
                    if req.page_images ≠ [] then "vision" else "assistants" }
              else d) := by
  by_cases hbad : req.document_id = "" ∨ req.user_id = ""
  · have hp : processPdf req env db =
        (.badRequest "document_id and user_id are required", db) := by
      unfold processPdf
      rw [if_pos hbad]
    rw [hp]
    exact Or.inl ⟨⟨_, rfl⟩, rfl⟩
  · rcases hfl : db.documents.filter (fun d => decide (d.id = req.document_id))
      with _ | ⟨d, tl⟩
    · have hp : processPdf req env db = (.err "Document not found", db) := by
        unfold processPdf
        rw [if_neg hbad, hfl]
      rw [hp]
      exact Or.inr (Or.inl ⟨⟨_, rfl⟩, rfl⟩)
    · cases tl with
      | cons d2 tl2 =>
        have hp : processPdf req env db = (.err "Document not found", db) := by
          unfold processPdf
          rw [if_neg hbad, hfl]
        rw [hp]
        exact Or.inr (Or.inl ⟨⟨_, rfl⟩, rfl⟩)
      | nil =>
        have hco : processPdf req env db = processPdfCore req env db := by
          unfold processPdf
          rw [if_neg hbad, hfl]
        rw [hco]
        rcases hA : pdfAnalyses req env with e | ⟨analyses, pimages⟩
        · rw [processPdfCore_error hA]
          exact Or.inr (Or.inl ⟨⟨e, rfl⟩, rfl⟩)
        · rw [processPdfCore_ok hA]
          by_cases hZ : createSemanticChunks analyses = []
          · rw [ingest_zero hZ]
            exact Or.inr (Or.inl ⟨⟨_, rfl⟩, rfl⟩)
          · rcases hE : env.chunkEmbedsResult with e | embeds
            · rw [ingest_embed_error hZ hE]
              exact Or.inr (Or.inl ⟨⟨e, rfl⟩, rfl⟩)
            · rcases hI : env.insertChunksError with _ | m
              · by_cases hp0 : pimages = []
                · subst hp0
                  rw [ingest_success_noimages hZ hE hI]
                  exact Or.inr (Or.inr ⟨analyses, [], embeds, rfl, rfl, rfl, hZ,
                    rfl, rfl⟩)
                · rcases hIE : env.imageEmbedsResult with e | iembeds
                  · rw [ingest_img_embed_error hZ hE hI hp0 hIE]
                    exact Or.inr (Or.inl ⟨⟨e, rfl⟩, rfl⟩)
                  · rcases hII : env.insertImagesError with _ | m2
                    · rw [ingest_success_images hZ hE hI hp0 hIE hII]
                      exact Or.inr (Or.inr ⟨analyses, pimages, embeds, rfl, rfl,
                        rfl, hZ, rfl, rfl⟩)
                    · rw [ingest_success_img_insert_error hZ hE hI hp0 hIE hII]
                      exact Or.inr (Or.inr ⟨analyses, pimages, embeds, rfl, rfl,
                        rfl, hZ, rfl, rfl⟩)
              · rw [ingest_insert_error hZ hE hI]
                exact Or.inr (Or.inl ⟨⟨_, rfl⟩, rfl⟩)

/-! ## C9 -/

/-- C9: when the chunker produces zero chunks the ingestion throws and
the handler returns the explicit failure response (success = false with
the "no content" message), and a success response never reports a zero
chunk count. -/
theorem zero_chunks_hard_failure {E : Type} (req : ProcessPdfRequest)
    (env : ProcessEnv E) (db : DB E) :
    (∀ analyses pimages, pdfAnalyses req env = .ok (analyses, pimages) →
        docFound req db → createSemanticChunks analyses = [] →
        (processPdf req env db).1 = .err noContentMsg) ∧
      ∀ c i p m, (processPdf req env db).1 = .ok c i p m → 0 < c := by
  constructor
  · intro analyses pimages hA hD hZ
    rw [processPdf_found hD, processPdfCore_ok hA, ingest_zero hZ]
  · intro c i p m hok
    rcases processPdf_shape req env db with ⟨⟨e, he⟩, _⟩ | ⟨⟨e, he⟩, _⟩ |
      ⟨analyses, pimages, embeds, _, _, _, hZ, hres, _⟩
    · rw [hok] at he
      exact absurd he (by simp)
    · rw [hok] at he
      exact absurd he (by simp)
    · rw [hok] at hres
      injection hres with h1 _ _ _
      rw [h1]
      exact List.length_pos.mpr hZ

def wReq : ProcessPdfRequest := ⟨"doc1", "u1", [], []⟩

def wDoc : DocRow := ⟨"doc1", "u1", [], false, 0, "assistants"⟩

def wEnvZero : ProcessEnv Unit := ⟨[], [], .ok [], .ok [], .ok [], none, none⟩

def wDb : DB Unit := ⟨[wDoc], [], []⟩

theorem zero_chunks_hard_failure_witness :
    (processPdf wReq wEnvZero wDb).1 = .err noContentMsg :=
  (zero_chunks_hard_failure wReq wEnvZero wDb).1 [] [] rfl
    ⟨by decide, by decide, wDoc, by decide⟩ rfl

/-! ## C2 -/

/-- C2 (amended): a chunk-embedding failure or a chunk-insert failure
aborts the run with an explicit error response; whenever the response is
not a success the documents table is untouched, so the document keeps
`processed = false`; on success the `processed` update is applied as the
final step.  The corrective part: a failure of the *image* insert alone
is only logged — the run still returns a success response. -/
theorem ingestion_failure_handling {E : Type} (req : ProcessPdfRequest)
    (env : ProcessEnv E) (db : DB E) :
    (∀ e, (processPdf req env db).1 = .err e →
        (processPdf req env db).2.documents = db.documents) ∧
      (∀ e, (processPdf req env db).1 = .badRequest e →
        (processPdf req env db).2 = db) ∧
      (∀ analyses pimages e, docFound req db →
        pdfAnalyses req env = .ok (analyses, pimages) →
        createSemanticChunks analyses ≠ [] →
        env.chunkEmbedsResult = .error e →
        (processPdf req env db).1 = .err e) ∧
      (∀ analyses pimages embeds m, docFound req db →
        pdfAnalyses req env = .ok (analyses, pimages) →
        createSemanticChunks analyses ≠ [] →
        env.chunkEmbedsResult = .ok embeds →
        env.insertChunksError = some m →
        (processPdf req env db).1 = .err ("Failed to insert chunks: " ++ m)) ∧
      (∀ analyses pimages embeds iembeds m, docFound req db →
        pdfAnalyses req env = .ok (analyses, pimages) →
        createSemanticChunks analyses ≠ [] →
        env.chunkEmbedsResult = .ok embeds →
        env.insertChunksError = none →
        pimages ≠ [] →
        env.imageEmbedsResult = .ok iembeds →
        env.insertImagesError = some m →
        (processPdf req env db).1 =
          .ok (createSemanticChunks analyses).length pimages.length
            analyses.length
            (if req.page_images ≠ [] then "vision" else "assistants")) ∧
      (∀ c i p m, (processPdf req env db).1 = .ok c i p m →
        (processPdf req env db).2.documents =
          db.documents.map fun d =>
            if d.id = req.document_id then
              { d with
                processed := true,
                total_pages := (p : Int),
                processing_method := m }
            else d) := by
  refine ⟨?_, ?_, ?_, ?_, ?_, ?_⟩
  · intro e he
    rcases processPdf_shape req env db with ⟨⟨e2, he2⟩, _⟩ | ⟨_, hdocs⟩ |
      ⟨analyses, pimages, embeds, _, _, _, _, hres, _⟩
    · rw [he] at he2
      exact absurd he2 (by simp)
    · exact hdocs
    · rw [he] at hres
      exact absurd hres (by simp)
  · intro e he
    rcases processPdf_shape req env db with ⟨_, hdb⟩ | ⟨⟨e2, he2⟩, _⟩ |
      ⟨analyses, pimages, embeds, _, _, _, _, hres, _⟩
    · exact hdb
    · rw [he] at he2
      exact absurd he2 (by simp)
    · rw [he] at hres
      exact absurd hres (by simp)
  · intro analyses pimages e hD hA hZ hE
    rw [processPdf_found hD, processPdfCore_ok hA, ingest_embed_error hZ hE]
  · intro analyses pimages embeds m hD hA hZ hE hI
    rw [processPdf_found hD, processPdfCore_ok hA, ingest_insert_error hZ hE hI]
  · intro analyses pimages embeds iembeds m hD hA hZ hE hI hp0 hIE hII
    rw [processPdf_found hD, processPdfCore_ok hA,
      ingest_success_img_insert_error hZ hE hI hp0 hIE hII]
  · intro c i p m hok
    rcases processPdf_shape req env db with ⟨⟨e, he⟩, _⟩ | ⟨⟨e, he⟩, _⟩ |
      ⟨analyses, pimages, embeds, _, _, _, _, hres, hdocs⟩
    · rw [hok] at he
      exact absurd he (by simp)
    · rw [hok] at he
      exact absurd he (by simp)
    · rw [hok] at hres
      injection hres with h1 h2 h3 h4
      rw [hdocs, h3, h4]

def cexC2Req : ProcessPdfRequest :=
  ⟨"doc1", "u1", [("p1".toList)], [⟨1, ("d".toList), 100, 100⟩]⟩

def cexC2Env : ProcessEnv Unit :=
  ⟨[⟨1, List.replicate 60 'x', [], [], []⟩],
    [⟨1, ("u".toList), ("cap".toList), ("photo".toList), 100, 100⟩],
    .ok [], .ok [()], .ok [()], none, some "disk full"⟩

/-- C2 counterexample: the image-insert step fails (`insertImagesError`)
in a run where everything else succeeds, yet the handler returns a
success response — the failure of the final persistence of images does
not abort the ingestion, it is only logged. -/
theorem ingestion_image_insert_cex :
    cexC2Env.insertImagesError = some "disk full" ∧
      (processPdf cexC2Req cexC2Env wDb).1 = .ok 1 1 1 "vision" := by
  exact ⟨rfl, rfl⟩

def wReqVision : ProcessPdfRequest := ⟨"doc1", "u1", [("p1".toList)], []⟩

def wEnvEmbedErr : ProcessEnv Unit :=
  ⟨[⟨1, List.replicate 60 'x', [], [], []⟩], [], .ok [], .error "boom",
    .ok [], none, none⟩

theorem ingestion_failure_handling_witness :
    (processPdf wReqVision wEnvEmbedErr wDb).1 = .err "boom" :=
  (ingestion_failure_handling wReqVision wEnvEmbedErr wDb).2.2.1
    [⟨1, List.replicate 60 'x', [], [], []⟩] [] "boom"
    ⟨by decide, by decide, wDoc, by decide⟩ rfl (by decide) rfl

/-! ## C1 / C10: what a run does to the chunk and image stores -/

theorem chunksToInsertOf_user {E : Type} (req : ProcessPdfRequest)
    (chunks : List Chunk) (embeds : List E) :
    ∀ r ∈ chunksToInsertOf req chunks embeds, r.user_id = req.user_id := by
  intro r hr
  obtain ⟨i, hi, hf⟩ := List.exists_of_mem_mapIdx hr
  rw [← hf]

theorem imagesToInsertOf_user {E : Type} (req : ProcessPdfRequest)
    (pimages : List ProcessedImage) (embeds : List E) :
    ∀ r ∈ imagesToInsertOf req pimages embeds, r.user_id = req.user_id := by
  intro r hr
  obtain ⟨i, hi, hf⟩ := List.exists_of_mem_mapIdx hr
  rw [← hf]

/-- Every run either leaves the chunk and image stores untouched or
replaces the requesting user's rows: other users' rows are filtered
through unchanged and every appended row belongs to the requesting
user. -/
theorem processPdf_store_shape {E : Type} (req : ProcessPdfRequest)
    (env : ProcessEnv E) (db : DB E) :
    ∃ (newChunks : List (ChunkRow E)) (newImages : List (ImageRow E)),
      (∀ r ∈ newChunks, r.user_id = req.user_id) ∧
        (∀ r ∈ newImages, r.user_id = req.user_id) ∧
        (((processPdf req env db).2.chunks = db.chunks ∧
            (processPdf req env db).2.images = db.images) ∨
          ((processPdf req env db).2.chunks =
              (clearedDB req db).chunks ++ newChunks ∧
            (processPdf req env db).2.images =
              (clearedDB req db).images ++ newImages)) := by
  by_cases hbad : req.document_id = "" ∨ req.user_id = ""
  · refine ⟨[], [], by simp, by simp, Or.inl ?_⟩
    have hp : processPdf req env db =
        (.badRequest "document_id and user_id are required", db) := by
      unfold processPdf
      rw [if_pos hbad]
    rw [hp]
    exact ⟨rfl, rfl⟩
  · rcases hfl : db.documents.filter (fun d => decide (d.id = req.document_id))
      with _ | ⟨d, tl⟩
    · refine ⟨[], [], by simp, by simp, Or.inl ?_⟩
      have hp : processPdf req env db = (.err "Document not found", db) := by
        unfold processPdf
        rw [if_neg hbad, hfl]
      rw [hp]
      exact ⟨rfl, rfl⟩
    · cases tl with
      | cons d2 tl2 =>
        refine ⟨[], [], by simp, by simp, Or.inl ?_⟩
        have hp : processPdf req env db = (.err "Document not found", db) := by
          unfold processPdf
          rw [if_neg hbad, hfl]
        rw [hp]
        exact ⟨rfl, rfl⟩
      | nil =>
        have hco : processPdf req env db = processPdfCore req env db := by
          unfold processPdf
          rw [if_neg hbad, hfl]
        rw [hco]
        rcases hA : pdfAnalyses req env with e | ⟨analyses, pimages⟩
        · rw [processPdfCore_error hA]
          exact ⟨[], [], by simp, by simp, Or.inl ⟨rfl, rfl⟩⟩
        · rw [processPdfCore_ok hA]
          by_cases hZ : createSemanticChunks analyses = []
          · rw [ingest_zero hZ]
            exact ⟨[], [], by simp, by simp,
              Or.inr ⟨by simp, by simp⟩⟩
          · rcases hE : env.chunkEmbedsResult with e | embeds
            · rw [ingest_embed_error hZ hE]
              exact ⟨[], [], by simp, by simp,
                Or.inr ⟨by simp, by simp⟩⟩
            · rcases hI : env.insertChunksError with _ | m
              · by_cases hp0 : pimages = []
                · subst hp0
                  rw [ingest_success_noimages hZ hE hI]
                  exact ⟨chunksToInsertOf req (createSemanticChunks analyses)
                      embeds, [],
                    chunksToInsertOf_user req _ _, by simp,
                    Or.inr ⟨rfl, by simp [markProcessed]⟩⟩
                · rcases hIE : env.imageEmbedsResult with e | iembeds
                  · rw [ingest_img_embed_error hZ hE hI hp0 hIE]
                    exact ⟨chunksToInsertOf req (createSemanticChunks analyses)
                        embeds, [],
                      chunksToInsertOf_user req _ _, by simp,
                      Or.inr ⟨rfl, by simp⟩⟩
                  · rcases hII : env.insertImagesError with _ | m2
                    · rw [ingest_success_images hZ hE hI hp0 hIE hII]
                      exact ⟨chunksToInsertOf req
                          (createSemanticChunks analyses) embeds,
                        imagesToInsertOf req pimages iembeds,
                        chunksToInsertOf_user req _ _,
                        imagesToInsertOf_user req _ _,
                        Or.inr ⟨rfl, rfl⟩⟩
                    · rw [ingest_success_img_insert_error hZ hE hI hp0 hIE hII]
                      exact ⟨chunksToInsertOf req
                          (createSemanticChunks analyses) embeds, [],
                        chunksToInsertOf_user req _ _, by simp,
                        Or.inr ⟨rfl, by simp [markProcessed]⟩⟩
              · rw [ingest_insert_error hZ hE hI]
                exact ⟨[], [], by simp, by simp,
                  Or.inr ⟨by simp, by simp⟩⟩

theorem mem_cleared_chunks_iff {E : Type} {req : ProcessPdfRequest}
    {db : DB E} {r : ChunkRow E} (h : r.user_id ≠ req.user_id) :
    r ∈ (clearedDB req db).chunks ↔ r ∈ db.chunks := by
  simp [clearedDB, List.mem_filter, h]

theorem mem_cleared_images_iff {E : Type} {req : ProcessPdfRequest}
    {db : DB E} {r : ImageRow E} (h : r.user_id ≠ req.user_id) :
    r ∈ (clearedDB req db).images ↔ r ∈ db.images := by
  simp [clearedDB, List.mem_filter, h]

/-- C1 (amended): chunk and image rows are user-scoped — a run never
adds, removes or alters another user's chunk/image rows, every row it
does write carries the requesting user's id, and the match queries only
return projections of rows owned by the requesting user.  The claim's
statement about the `documents` table is refuted separately: the
document fetch and the `processed` update are filtered by `document_id`
only. -/
theorem cross_user_scoping {E : Type} (req : ProcessPdfRequest)
    (env : ProcessEnv E) (db : DB E) :
    (∀ r : ChunkRow E, r.user_id ≠ req.user_id →
        (r ∈ (processPdf req env db).2.chunks ↔ r ∈ db.chunks)) ∧
      (∀ r : ImageRow E, r.user_id ≠ req.user_id →
        (r ∈ (processPdf req env db).2.images ↔ r ∈ db.images)) ∧
      (∀ r ∈ (processPdf req env db).2.chunks,
        r ∈ db.chunks ∨ r.user_id = req.user_id) ∧
      (∀ r ∈ (processPdf req env db).2.images,
        r ∈ db.images ∨ r.user_id = req.user_id) ∧
      (∀ (E2 : Type) (dist : E2 → E2 → ℚ) (rows : List (ChunkRow E2))
          (q : E2) (t : ℚ) (k : Nat) (uid : String) res,
        res ∈ matchDocuments dist rows q t k uid →
        ∃ r ∈ rows, r.user_id = uid ∧ res = projChunkRow dist q r) ∧
      (∀ (E2 : Type) (dist : E2 → E2 → ℚ) (rows : List (ImageRow E2))
          (q : E2) (t : ℚ) (k : Nat) (uid : String) res,
        res ∈ matchImages dist rows q t k uid →
        ∃ r ∈ rows, r.user_id = uid ∧ res = projImageRow dist q r) := by
  obtain ⟨newChunks, newImages, hnc, hni, hshape⟩ :=
    processPdf_store_shape req env db
  refine ⟨?_, ?_, ?_, ?_,
    fun E2 dist rows q t k uid res hres => (matchDocuments_mem hres).2,
    fun E2 dist rows q t k uid res hres => (matchImages_mem hres).2⟩
  · intro r hr
    rcases hshape with ⟨hc, _⟩ | ⟨hc, _⟩
    · rw [hc]
    · rw [hc]
      rw [List.mem_append]
      constructor
      · rintro (h | h)
        · exact (mem_cleared_chunks_iff hr).mp h
        · exact absurd (hnc r h) hr
      · intro h
        exact Or.inl ((mem_cleared_chunks_iff hr).mpr h)
  · intro r hr
    rcases hshape with ⟨_, hi⟩ | ⟨_, hi⟩
    · rw [hi]
    · rw [hi]
      rw [List.mem_append]
      constructor
      · rintro (h | h)
        · exact (mem_cleared_images_iff hr).mp h
        · exact absurd (hni r h) hr
      · intro h
        exact Or.inl ((mem_cleared_images_iff hr).mpr h)
  · intro r hr
    rcases hshape with ⟨hc, _⟩ | ⟨hc, _⟩
    · rw [hc] at hr
      exact Or.inl hr
    · rw [hc] at hr
      rcases List.mem_append.mp hr with h | h
      · exact Or.inl (List.mem_of_mem_filter h)
      · exact Or.inr (hnc r h)
  · intro r hr
    rcases hshape with ⟨_, hi⟩ | ⟨_, hi⟩
    · rw [hi] at hr
      exact Or.inl hr
    · rw [hi] at hr
      rcases List.mem_append.mp hr with h | h
      · exact Or.inl (List.mem_of_mem_filter h)
      · exact Or.inr (hni r h)

def cexDocB : DocRow := ⟨"docB", "userB", [], false, 0, "assistants"⟩

def cexReqA : ProcessPdfRequest := ⟨"docB", "userA", [("p1".toList)], []⟩

def cexEnvA : ProcessEnv Unit :=
  ⟨[⟨1, List.replicate 60 'x', [], [], []⟩], [], .ok [], .ok [()],
    .ok [], none, none⟩

def cexDbB : DB Unit := ⟨[cexDocB], [], []⟩

/-- C1 counterexample: a request by `userA` carrying `userB`'s document
id succeeds and flips `userB`'s document row to `processed = true` —
the document fetched at the start of ingestion and the final update are
not scoped to the requesting user, so cross-user access to the
`documents` table is possible. -/
theorem cross_user_document_write_cex :
    cexDocB.user_id ≠ cexReqA.user_id ∧
      (processPdf cexReqA cexEnvA cexDbB).1 = .ok 1 0 1 "vision" ∧
      (processPdf cexReqA cexEnvA cexDbB).2.documents =
        [⟨"docB", "userB", [], true, 1, "vision"⟩] := by
  exact ⟨by decide, rfl, rfl⟩

def cexOtherChunk : ChunkRow Unit :=
  ⟨5, "userB", "docB", ("hello".toList), 1, some 0, some false, none, some ()⟩

theorem cross_user_scoping_witness :
    cexOtherChunk ∈
        (processPdf cexReqA cexEnvA
          ⟨[cexDocB], [cexOtherChunk], []⟩).2.chunks ↔
      cexOtherChunk ∈
        (⟨[cexDocB], [cexOtherChunk], []⟩ : DB Unit).chunks :=
  (cross_user_scoping cexReqA cexEnvA ⟨[cexDocB], [cexOtherChunk], []⟩).1
    cexOtherChunk (by decide)

/-! ## C10: what failed runs leave behind -/

def userChunks {E : Type} (u : String) (db : DB E) : List (ChunkRow E) :=
  db.chunks.filter (fun r => decide (r.user_id = u))

def userImages {E : Type} (u : String) (db : DB E) : List (ImageRow E) :=
  db.images.filter (fun r => decide (r.user_id = u))

theorem userChunks_cleared {E : Type} (req : ProcessPdfRequest) (db : DB E) :
    userChunks req.user_id (clearedDB req db) = [] := by
  unfold userChunks clearedDB
  simp only [List.filter_filter]
  apply List.filter_eq_nil_iff.mpr
  intro a _
  simp

theorem userImages_cleared {E : Type} (req : ProcessPdfRequest) (db : DB E) :
    userImages req.user_id (clearedDB req db) = [] := by
  unfold userImages clearedDB
  simp only [List.filter_filter]
  apply List.filter_eq_nil_iff.mpr
  intro a _
  simp

theorem filter_user_append {E : Type} (u : String)
    (A ins : List (ChunkRow E))
    (hA : A.filter (fun r => decide (r.user_id = u)) = [])
    (hins : ∀ r ∈ ins, r.user_id = u) :
    (A ++ ins).filter (fun r => decide (r.user_id = u)) = ins := by
  rw [List.filter_append, hA, List.nil_append]
  exact List.filter_eq_self.mpr (fun r hr => by simp [hins r hr])

/-- C10 (amended): every failure after the clear step has already deleted
the user's previous chunks and images.  A zero-chunk failure, a
chunk-embedding failure or a chunk-insert failure leaves both stores
empty for the user; an image-caption-embedding failure, however, leaves
the freshly inserted, non-empty chunk set (not an empty one) together
with an empty image set.  In no failure mode is the previous generation
preserved. -/
theorem failed_run_clears_previous {E : Type} (req : ProcessPdfRequest)
    (env : ProcessEnv E) (db : DB E) (analyses : List PageAnalysis)
    (pimages : List ProcessedImage)
    (hD : docFound req db)
    (hA : pdfAnalyses req env = .ok (analyses, pimages)) :
    (createSemanticChunks analyses = [] →
        userChunks req.user_id (processPdf req env db).2 = [] ∧
          userImages req.user_id (processPdf req env db).2 = []) ∧
      (∀ e, createSemanticChunks analyses ≠ [] →
        env.chunkEmbedsResult = .error e →
        userChunks req.user_id (processPdf req env db).2 = [] ∧
          userImages req.user_id (processPdf req env db).2 = []) ∧
      (∀ embeds m, createSemanticChunks analyses ≠ [] →
        env.chunkEmbedsResult = .ok embeds →
        env.insertChunksError = some m →
        userChunks req.user_id (processPdf req env db).2 = [] ∧
          userImages req.user_id (processPdf req env db).2 = []) ∧
      (∀ embeds e, createSemanticChunks analyses ≠ [] →
        env.chunkEmbedsResult = .ok embeds →
        env.insertChunksError = none →
        pimages ≠ [] →
        env.imageEmbedsResult = .error e →
        (processPdf req env db).1 = .err e ∧
          userChunks req.user_id (processPdf req env db).2 =
            chunksToInsertOf req (createSemanticChunks analyses) embeds ∧
          chunksToInsertOf req (createSemanticChunks analyses) embeds ≠ [] ∧
          userImages req.user_id (processPdf req env db).2 = []) := by
  refine ⟨?_, ?_, ?_, ?_⟩
  · intro hZ
    rw [processPdf_found hD, processPdfCore_ok hA, ingest_zero hZ]
    exact ⟨userChunks_cleared req db, userImages_cleared req db⟩
  · intro e hZ hE
    rw [processPdf_found hD, processPdfCore_ok hA, ingest_embed_error hZ hE]
    exact ⟨userChunks_cleared req db, userImages_cleared req db⟩
  · intro embeds m hZ hE hI
    rw [processPdf_found hD, processPdfCore_ok hA, ingest_insert_error hZ hE hI]
    exact ⟨userChunks_cleared req db, userImages_cleared req db⟩
  · intro embeds e hZ hE hI hp0 hIE
    rw [processPdf_found hD, processPdfCore_ok hA,
      ingest_img_embed_error hZ hE hI hp0 hIE]
    refine ⟨rfl, ?_, ?_, ?_⟩
    · unfold userChunks
      exact filter_user_append req.user_id _ _ (userChunks_cleared req db)
        (chunksToInsertOf_user req _ _)
    · unfold chunksToInsertOf
      exact List.mapIdx_ne_nil_iff.mpr hZ
    · exact userImages_cleared req db

def cexC10Req : ProcessPdfRequest :=
  ⟨"doc1", "u1", [("p1".toList)], [⟨1, ("d".toList), 100, 100⟩]⟩

def cexOldChunk : ChunkRow Unit :=
  ⟨9, "u1", "docOld", ("old".toList), 1, some 0, some false, none, some ()⟩

def cexOldImage : ImageRow Unit :=
  ⟨9, "u1", "docOld", 1, ("urlOld".toList), none, none, 10, 10, none, some ()⟩

def cexC10Db : DB Unit := ⟨[wDoc], [cexOldChunk], [cexOldImage]⟩

def cexC10Env : ProcessEnv Unit :=
  ⟨[⟨1, List.replicate 60 'x', [], [], []⟩],
    [⟨1, ("u".toList), ("cap".toList), ("photo".toList), 100, 100⟩],
    .ok [], .ok [()], .error "imgboom", none, none⟩

/-- C10 counterexample: when the image-caption embedding batch fails the
run fails *after* the new chunks were inserted, so the failed run leaves
the user's chunk set non-empty (the new chunks), not empty — while the
previous generation (the old chunk row) is indeed gone and the image set
is empty. -/
theorem failed_run_chunks_not_empty_cex :
    (processPdf cexC10Req cexC10Env cexC10Db).1 = .err "imgboom" ∧
      userChunks "u1" (processPdf cexC10Req cexC10Env cexC10Db).2 ≠ [] ∧
      cexOldChunk ∉ (processPdf cexC10Req cexC10Env cexC10Db).2.chunks ∧
      userImages "u1" (processPdf cexC10Req cexC10Env cexC10Db).2 = [] := by
  exact ⟨rfl, by decide, by decide, rfl⟩

theorem failed_run_clears_previous_witness :
    userChunks "u1" (processPdf wReq wEnvZero wDb).2 = [] ∧
      userImages "u1" (processPdf wReq wEnvZero wDb).2 = [] :=
  (failed_run_clears_previous wReq wEnvZero wDb [] []
    ⟨by decide, by decide, wDoc, by decide⟩ rfl).1 rfl

end ProSmart
